import Mathlib

/-!
Shallow embedding of the ride-log graph analytics program
(`src/final_project/project/src/main.rs`) and proofs about it.

Rust machine values are modelled as follows: `String` keeps its Rust
byte-lexicographic order (UTF-8 byte order coincides with code-point order,
itself the lexicographic order on the character list); `Vec<T>` is `List T`;
`usize` is `Nat` (no arithmetic in the program can overflow a 64-bit size:
all values are bounded by list lengths); `Option<T>` is `Option T`.
A Rust panic (out-of-range index) is modelled by returning `none` from an
outer `Option` layer.  `HashSet` / `HashMap` contents are modelled by
duplicate-free association lists in insertion order; where the program's
result depends on the unspecified hash-iteration order, the iteration order
is an explicit parameter.
-/

namespace RideGraph

/-- Trip categories: Business or Personal (enum `Category` in main.rs). -/
inductive Category where
  | Business
  | Personal
deriving DecidableEq

/-- A trip record `(origin, destination, category)`. -/
abbrev Ride := String × String × Category

/-- Lexicographic comparison of character lists by code point; this is the
order Rust's `String: Ord` induces (UTF-8 byte order = code-point order). -/
def listLeB : List Char → List Char → Bool
  | [], _ => true
  | _ :: _, [] => false
  | a :: as, b :: bs =>
    if a.toNat < b.toNat then true
    else if b.toNat < a.toNat then false
    else listLeB as bs

/-- Rust `String` non-strict comparison. -/
def strLeB (s t : String) : Bool := listLeB s.data t.data

/-- Rust `String` strict comparison (total order, so `s < t ↔ ¬ t ≤ s`). -/
def strLtB (s t : String) : Bool := !(strLeB t s)

/-- One step of insertion sort with respect to the boolean order `le`. -/
def insertLe {α : Type} (le : α → α → Bool) (x : α) : List α → List α
  | [] => [x]
  | y :: ys => if le x y then x :: y :: ys else y :: insertLe le x ys

/-- Stable ascending sort with respect to `le`; models `Vec::sort` /
`Vec::sort_by` (any correct stable sort computes the same list). -/
def sortLe {α : Type} (le : α → α → Bool) : List α → List α
  | [] => []
  | x :: xs => insertLe le x (sortLe le xs)

/-- Insertion into a duplicate-free list (model of `HashSet::insert`,
keeping first-insertion iteration order as the canonical enumeration). -/
def insertNode (l : List String) (x : String) : List String :=
  if x ∈ l then l else l ++ [x]

/-- Collecting unique nodes (`unique_nodes` in main.rs): every origin and
destination of every ride, as a duplicate-free list. -/
def unique_nodes (rides : List Ride) : List String :=
  rides.foldl (fun l r => insertNode (insertNode l r.1) r.2.1) []

/-- Lookup in the `HashMap` built by inserting `(name, k + position)` for
each element of the list in order; a later insert overwrites an earlier
one, so the deepest match wins. -/
def buildIndexAux (k : Nat) : List String → String → Option Nat
  | [], _ => none
  | name :: rest, s =>
    match buildIndexAux (k + 1) rest s with
    | some i => some i
    | none => if s = name then some k else none

/-- The name-to-index map of `adjacency_list`: `index.insert(name, i)` for
`(i, name)` in `locations.iter().enumerate()`. -/
def buildIndex (l : List String) : String → Option Nat := buildIndexAux 0 l

/-- Push `v` onto row `u` of the adjacency structure
(`adjacency[u].push(v)`; `u` is always in range when called). -/
def addEdge (adj : List (List Nat)) (u v : Nat) : List (List Nat) :=
  adj.set u (adj.getD u [] ++ [v])

/-- Build adjacency list and location list (`adjacency_list` in main.rs).
`nodes` is the iteration order in which the `HashSet` of unique nodes is
drained into a `Vec`; it is sorted before indexing. -/
def adjacency_list (rides : List Ride) (nodes : List String) :
    List (List Nat) × List String :=
  let locations := sortLe strLeB nodes
  let index := buildIndex locations
  let adjacency := rides.foldl (fun adj r =>
    match index r.1, index r.2.1 with
    | some u, some v => addEdge adj u v
    | _, _ => adj) (List.replicate locations.length [])
  (adjacency, locations)

/-- The `(origin, destination)` key of a ride. -/
def pairKey (r : Ride) : String × String := (r.1, r.2.1)

/-- Increment the count stored under `key`, or append `(key, 1)` if absent
(model of `*count.entry(key).or_insert(0) += 1`). -/
def bump : List ((String × String) × Nat) → (String × String) →
    List ((String × String) × Nat)
  | [], key => [(key, 1)]
  | (k, c) :: rest, key =>
    if k = key then (k, c + 1) :: rest else (k, c) :: bump rest key

/-- Occurrence counts of each `(origin, destination)` pair, as a
duplicate-free association list in first-occurrence order. -/
def pairCounts (rides : List Ride) : List ((String × String) × Nat) :=
  rides.foldl (fun l r => bump l (pairKey r)) []

/-- Rust tuple comparison on `(String, String)`: first component, then
second. -/
def pairLeB (p q : String × String) : Bool :=
  strLtB p.1 q.1 || (decide (p.1 = q.1) && strLeB p.2 q.2)

/-- The comparator of `most_frequent_pairs`: descending by count, ties
broken by ascending pair order (`b.1.cmp(&a.1)` then `a.0.cmp(&b.0)`). -/
def routeLe (a b : (String × String) × Nat) : Bool :=
  decide (b.2 < a.2) || (decide (b.2 = a.2) && pairLeB a.1 b.1)

/-- Top-N frequent direct routes (`most_frequent_pairs` in main.rs):
count pairs, sort by the comparator, truncate to `most_frequent`. -/
def most_frequent_pairs (rides : List Ride) (most_frequent : Nat) :
    List ((String × String) × Nat) :=
  (sortLe routeLe (pairCounts rides)).take most_frequent

/-- The tally a location `s` receives in category `cat`: one for each ride
of that category with origin `s` plus one for each with destination `s`
(the per-category `HashMap` of `popular_hubs`, read at key `s`). -/
def tally (rides : List Ride) (cat : Category) (s : String) : Nat :=
  rides.foldl (fun n r =>
    if r.2.2 = cat then
      (if r.1 = s then n + 1 else n) + (if r.2.1 = s then 1 else 0)
    else n) 0

/-- The key set of the per-category tally map, in first-insertion order
(one canonical iteration order of the `HashMap`). -/
def keysOf (rides : List Ride) (cat : Category) : List String :=
  rides.foldl (fun l r =>
    if r.2.2 = cat then insertNode (insertNode l r.1) r.2.1 else l) []

/-- One step of Rust `Iterator::max_by_key`: keep the current maximum,
replacing it whenever a later element's key is greater or equal (so among
equal maxima the last iterated element wins). -/
def maxStep (counts : String → Nat) (acc : Option String) (x : String) : Option String :=
  match acc with
  | none => some x
  | some b => if counts b ≤ counts x then some x else some b

/-- Rust `Iterator::max_by_key` over the given iteration order. -/
def maxByCount (counts : String → Nat) (keys : List String) : Option String :=
  keys.foldl (maxStep counts) none

/-- Popular hubs by category (`popular_hubs` in main.rs), with the hash-map
iteration order of each category's tally map passed explicitly
(`pOrder` for Personal, `bOrder` for Business).  `unwrap_or_default`
yields the empty string when a map is empty. -/
def popular_hubsWith (rides : List Ride) (pOrder bOrder : List String) :
    String × String :=
  ((maxByCount (tally rides Category.Personal) pOrder).getD "",
   (maxByCount (tally rides Category.Business) bOrder).getD "")

/-- Popular hubs at the canonical (first-insertion) iteration order. -/
def popular_hubs (rides : List Ride) : String × String :=
  popular_hubsWith rides (keysOf rides Category.Personal)
    (keysOf rides Category.Business)

/-- A tally map has a unique maximum when it is empty or some key strictly
dominates every other key. -/
def UniqueMax (counts : String → Nat) (keys : List String) : Prop :=
  keys = [] ∨ ∃ m ∈ keys, ∀ x ∈ keys, x ≠ m → counts x < counts m

/-- An adjacency structure is valid when every stored destination index is
in range (data-model invariant of the spec, section 3). -/
def ValidAdj (adj : List (List Nat)) : Prop :=
  ∀ row ∈ adj, ∀ v ∈ row, v < adj.length

/-- A directed walk of a given hop length from `s`, following stored
adjacency entries. -/
inductive Walk (adj : List (List Nat)) (s : Nat) : Nat → Nat → Prop where
  | refl : Walk adj s s 0
  | step : ∀ {u v k}, Walk adj s u k → v ∈ adj.getD u [] → Walk adj s v (k + 1)

/-- Reachability by directed edges. -/
def Reachable (adj : List (List Nat)) (s e : Nat) : Prop :=
  ∃ k, Walk adj s e k

/-- Number of `none` entries of a distance array. -/
def noneCount (l : List (Option Nat)) : Nat := l.countP fun o => o.isNone

/-- Number of `some` entries of a distance array. -/
def someCount (l : List (Option Nat)) : Nat := l.countP fun o => o.isSome

/-- The distance value recorded for `u` (0 when unset; only used for
queue entries, whose distances are always set). -/
def dval (dist : List (Option Nat)) (u : Nat) : Nat :=
  match dist[u]? with
  | some (some d) => d
  | _ => 0

/-- The invariant of the BFS loop state: array lengths, queue sanity,
soundness of recorded distances (each is the length of a real walk), the
predecessor chain structure, monotonicity of queue distances, and the
relaxation bookkeeping that yields minimality once the queue empties. -/
structure Inv (adj : List (List Nat)) (s : Nat) (prev dist : List (Option Nat))
    (queue : List Nat) : Prop where
  lenP : prev.length = adj.length
  lenD : dist.length = adj.length
  qlt : ∀ u ∈ queue, u < adj.length
  qset : ∀ u ∈ queue, ∃ d : Nat, dist[u]? = some (some d)
  qnd : queue.Nodup
  sound : ∀ (v d : Nat), dist[v]? = some (some d) → Walk adj s v d
  chain : ∀ (v w : Nat), prev[v]? = some (some w) →
    ∃ dw : Nat, dist[w]? = some (some dw) ∧ dist[v]? = some (some (dw + 1)) ∧
      v ∈ adj.getD w []
  prevS : prev[s]? = some none
  distS : dist[s]? = some (some 0)
  zeroUniq : ∀ v : Nat, dist[v]? = some (some 0) → v = s
  prevSet : ∀ (v d : Nat), dist[v]? = some (some (d + 1)) → ∃ w : Nat, prev[v]? = some (some w)
  mono : queue.Pairwise (fun a b => dval dist a ≤ dval dist b)
  spread : ∀ a ∈ queue, ∀ b ∈ queue, dval dist b ≤ dval dist a + 1
  processed : ∀ (u du : Nat), dist[u]? = some (some du) → u ∉ queue →
    ∀ v ∈ adj.getD u [], ∃ dv : Nat, dist[v]? = some (some dv) ∧ dv ≤ du + 1
  procLe : ∀ (u du : Nat), dist[u]? = some (some du) → u ∉ queue →
    ∀ b ∈ queue, du ≤ dval dist b
  bound : ∀ (v d : Nat), dist[v]? = some (some d) → d + 1 ≤ someCount dist

/-- The inner `for &v in &adj[u]` loop of the BFS: for each neighbour `v`
of `u` (at distance `du`), if `v` is undiscovered, set its distance to
`du + 1`, its predecessor to `u`, and push it on the back of the queue.
Returns `none` when some `v` is out of range (`distance[v]` panics). -/
def relax (u du : Nat) : List Nat → List (Option Nat) → List (Option Nat) →
    List Nat → Option (List (Option Nat) × List (Option Nat) × List Nat)
  | [], prev, dist, queue => some (prev, dist, queue)
  | v :: vs, prev, dist, queue =>
    match dist[v]? with
    | none => none
    | some (some _) => relax u du vs prev dist queue
    | some none =>
        relax u du vs (prev.set v (some u)) (dist.set v (some (du + 1)))
          (queue ++ [v])

/-- The BFS `while let Some(u) = queue.pop_front()` loop.  `stopAt = some e`
models the Path Finder's `if u == end \x7b break; \x7d`; `stopAt = none` runs
to queue exhaustion.  Fuel bounds the number of dequeues (any fuel at least
`noneCount dist + queue.length` is enough, see `bfsLoop_inv`); `none` is
returned on an out-of-range access (panic) or fuel exhaustion. -/
def bfsLoop (adj : List (List Nat)) (stopAt : Option Nat) :
    Nat → List (Option Nat) → List (Option Nat) → List Nat →
    Option (List (Option Nat) × List (Option Nat) × List Nat)
  | _, prev, dist, [] => some (prev, dist, [])
  | 0, _, _, _ :: _ => none
  | fuel + 1, prev, dist, u :: qs =>
    if stopAt = some u then some (prev, dist, u :: qs)
    else
      match adj[u]?, dist[u]? with
      | some nbrs, some (some du) =>
        match relax u du nbrs prev dist qs with
        | some (p2, d2, q2) => bfsLoop adj stopAt fuel p2 d2 q2
        | none => none
      | _, _ => none

/-- The `while let Some(p) = prev[current]` path-reconstruction loop,
accumulating the walked nodes in front of `acc` (which models the final
`reverse`).  `none` on an out-of-range access or fuel exhaustion
(any fuel exceeding the distance of `current` is enough). -/
def buildPath (prev : List (Option Nat)) :
    Nat → Nat → List Nat → Option (List Nat)
  | 0, _, _ => none
  | fuel + 1, current, acc =>
    match prev[current]? with
    | none => none
    | some none => some acc
    | some (some p) => buildPath prev fuel p (current :: acc)

/-- Shortest path by hops (`shortest_path` in main.rs).  The outer `Option`
is `none` exactly when the Rust code panics (out-of-range index); the inner
`Option` is the Rust return value: `some path` or `none` for "no path". -/
def shortest_path (adj : List (List Nat)) (s e : Nat) :
    Option (Option (List Nat)) :=
  if s < adj.length then
    match bfsLoop adj (some e) (adj.length + 1) (List.replicate adj.length none)
        ((List.replicate adj.length none).set s (some 0)) [s] with
    | none => none
    | some (prev, dist, _) =>
      match dist[e]? with
      | none => none
      | some none => some none
      | some (some _) =>
        match buildPath prev adj.length e [] with
        | none => none
        | some cl => some (some (s :: cl))
  else none

/-- Modelled from the spec: the `bfs` distance table of the missing
`stats.rs` module (spec section 4.4: "a generalization of the Path
Finder's traversal, but computing distances to all nodes, not stopping
early"; section 6: `bfs_distances(adjacency, source_index) -> mapping
index -> optional hop count`).  Identical to the Path Finder's BFS with no
early exit. -/
def bfs (adj : List (List Nat)) (s : Nat) : Option (List (Option Nat)) :=
  if s < adj.length then
    match bfsLoop adj none (adj.length + 1) (List.replicate adj.length none)
        ((List.replicate adj.length none).set s (some 0)) [s] with
    | none => none
    | some (_, dist, _) => some dist
  else none

/-! Lemmas about the string comparison: `strLeB`/`strLtB` agree with the
linear order on `String`. -/

theorem charLex_cons {b a : Char} {bs as : List Char} :
    List.Lex (· < ·) (b :: bs) (a :: as) ↔ b < a ∨ (b = a ∧ List.Lex (· < ·) bs as) := by
  constructor
  · intro h
    cases h with
    | cons h => exact Or.inr ⟨rfl, h⟩
    | rel h => exact Or.inl h
  · intro h
    rcases h with h | ⟨rfl, h⟩
    · exact List.Lex.rel h
    · exact List.Lex.cons h

theorem charToNat_inj {a b : Char} (h : a.toNat = b.toNat) : a = b :=
  Char.ext (UInt32.ext h)

theorem listLeB_iff_not_lex :
    ∀ as bs : List Char, listLeB as bs = true ↔ ¬ List.Lex (· < ·) bs as := by
  intro as
  induction as with
  | nil =>
    intro bs
    simp [listLeB, List.Lex.not_nil_right]
  | cons a as2 ih =>
    intro bs
    cases bs with
    | nil =>
      simp only [listLeB, Bool.false_eq_true, false_iff, not_not]
      exact List.Lex.nil
    | cons b bs2 =>
      simp only [listLeB, charLex_cons]
      have hlt : (b < a) ↔ b.toNat < a.toNat := Iff.rfl
      by_cases h1 : a.toNat < b.toNat
      · simp only [h1, if_pos, true_iff]
        intro h
        rcases h with h | ⟨rfl, _⟩
        · exact absurd h1 (Nat.lt_asymm (hlt.mp h))
        · exact Nat.lt_irrefl _ h1
      · by_cases h2 : b.toNat < a.toNat
        · simp only [h1, h2, if_neg, if_pos, Bool.false_eq_true, false_iff, not_not,
            not_false_eq_true]
          exact Or.inl (hlt.mpr h2)
        · have heq : a = b := charToNat_inj (Nat.le_antisymm (Nat.le_of_not_lt h2) (Nat.le_of_not_lt h1))
          subst heq
          rw [if_neg h1, if_neg h2, ih bs2]
          constructor
          · intro h hc
            rcases hc with hc | ⟨_, hc⟩
            · exact Nat.lt_irrefl _ (hlt.mp hc)
            · exact h hc
          · intro h hc
            exact h (Or.inr ⟨rfl, hc⟩)

theorem strLeB_iff (s t : String) : strLeB s t = true ↔ s ≤ t := by
  rw [← not_lt]
  have h2 : (t < s) ↔ List.Lex (· < ·) t.data s.data := String.lt_iff_toList_lt
  rw [h2]
  exact listLeB_iff_not_lex s.data t.data

theorem strLtB_iff (s t : String) : strLtB s t = true ↔ s < t := by
  unfold strLtB
  rw [Bool.not_eq_true', ← Bool.not_eq_true]
  rw [strLeB_iff]
  exact not_le

theorem strLeB_total (s t : String) : strLeB s t = true ∨ strLeB t s = true := by
  rcases le_total s t with h | h
  · exact Or.inl ((strLeB_iff s t).mpr h)
  · exact Or.inr ((strLeB_iff t s).mpr h)

theorem strLeB_trans {a b c : String} (h1 : strLeB a b = true) (h2 : strLeB b c = true) :
    strLeB a c = true :=
  (strLeB_iff a c).mpr (le_trans ((strLeB_iff a b).mp h1) ((strLeB_iff b c).mp h2))

theorem strLeB_antisymm {a b : String} (h1 : strLeB a b = true) (h2 : strLeB b a = true) :
    a = b :=
  le_antisymm ((strLeB_iff a b).mp h1) ((strLeB_iff b a).mp h2)

/-! Lemmas about the generic insertion sort `sortLe`. -/

theorem insertLe_perm {α : Type} (le : α → α → Bool) (x : α) :
    ∀ l : List α, (insertLe le x l).Perm (x :: l) := by
  intro l
  induction l with
  | nil => simp [insertLe]
  | cons y ys ih =>
    by_cases h : le x y = true
    · simp [insertLe, h]
    · simp only [insertLe, h, if_neg, Bool.not_eq_true]
      exact (ih.cons y).trans (List.Perm.swap x y ys)

theorem sortLe_perm {α : Type} (le : α → α → Bool) :
    ∀ l : List α, (sortLe le l).Perm l := by
  intro l
  induction l with
  | nil => simp [sortLe]
  | cons x xs ih =>
    exact ((insertLe_perm le x (sortLe le xs)).trans (ih.cons x))

theorem mem_insertLe {α : Type} {le : α → α → Bool} {x a : α} {l : List α} :
    a ∈ insertLe le x l ↔ a = x ∨ a ∈ l := by
  rw [(insertLe_perm le x l).mem_iff, List.mem_cons]

theorem pairwise_insertLe {α : Type} {le : α → α → Bool}
    (htrans : ∀ a b c, le a b = true → le b c = true → le a c = true)
    (htot : ∀ a b, le a b = true ∨ le b a = true) (x : α) :
    ∀ l : List α, l.Pairwise (fun a b => le a b = true) →
      (insertLe le x l).Pairwise (fun a b => le a b = true) := by
  intro l
  induction l with
  | nil => simp [insertLe]
  | cons y ys ih =>
    intro h
    rcases List.pairwise_cons.mp h with ⟨hy, hys⟩
    by_cases hxy : le x y = true
    · simp only [insertLe, hxy, if_pos]
      refine List.pairwise_cons.mpr ⟨?_, h⟩
      intro b hb
      rcases List.mem_cons.mp hb with rfl | hb
      · exact hxy
      · exact htrans x y b hxy (hy b hb)
    · simp only [insertLe, hxy, if_neg]
      refine List.pairwise_cons.mpr ⟨?_, ih hys⟩
      intro b hb
      rcases mem_insertLe.mp hb with rfl | hb
      · rcases htot b y with h2 | h2
        · exact absurd h2 hxy
        · exact h2
      · exact hy b hb

theorem pairwise_sortLe {α : Type} {le : α → α → Bool}
    (htrans : ∀ a b c, le a b = true → le b c = true → le a c = true)
    (htot : ∀ a b, le a b = true ∨ le b a = true) :
    ∀ l : List α, (sortLe le l).Pairwise (fun a b => le a b = true) := by
  intro l
  induction l with
  | nil => simp [sortLe]
  | cons x xs ih => exact pairwise_insertLe htrans htot x (sortLe le xs) ih

/-! Lemmas about `unique_nodes`, `buildIndex` and `adjacency_list`. -/

theorem mem_insertNode {l : List String} {x a : String} :
    a ∈ insertNode l x ↔ a = x ∨ a ∈ l := by
  unfold insertNode
  by_cases h : x ∈ l
  · simp only [h, if_pos]
    constructor
    · exact Or.inr
    · intro hc; rcases hc with rfl | hc
      · exact h
      · exact hc
  · simp only [h, if_neg, not_false_eq_true, List.mem_append, List.mem_singleton]
    tauto

theorem insertNode_nodup {l : List String} {x : String} (h : l.Nodup) :
    (insertNode l x).Nodup := by
  unfold insertNode
  by_cases hx : x ∈ l
  · simp only [hx, if_pos]; exact h
  · simp only [hx, if_neg, not_false_eq_true]
    refine List.Nodup.append h (List.nodup_singleton x) ?_
    intro y hy hy2
    rcases List.mem_singleton.mp hy2 with rfl
    exact hx hy

theorem nodesFold_nodup (step : List String → Ride → List String)
    (hstep : ∀ l r, l.Nodup → (step l r).Nodup) :
    ∀ (rides : List Ride) (l : List String), l.Nodup → (rides.foldl step l).Nodup := by
  intro rides
  induction rides with
  | nil => intro l h; exact h
  | cons r rs ih => intro l h; exact ih (step l r) (hstep l r h)

theorem unique_nodes_nodup (rides : List Ride) : (unique_nodes rides).Nodup := by
  unfold unique_nodes
  exact nodesFold_nodup _
    (fun l r h => insertNode_nodup (insertNode_nodup h)) rides [] List.nodup_nil

theorem buildIndexAux_none {x : String} :
    ∀ (l : List String) (k : Nat), x ∉ l → buildIndexAux k l x = none := by
  intro l
  induction l with
  | nil => intro k _; rfl
  | cons name rest ih =>
    intro k h
    have h1 : x ∉ rest := fun hc => h (List.mem_cons_of_mem name hc)
    have h2 : x ≠ name := fun hc => h (hc ▸ List.mem_cons_self name rest)
    unfold buildIndexAux
    rw [ih (k + 1) h1, if_neg h2]

theorem buildIndexAux_get {x : String} :
    ∀ (l : List String) (k j : Nat), l.Nodup → l[j]? = some x →
      buildIndexAux k l x = some (k + j) := by
  intro l
  induction l with
  | nil => intro k j _ h; simp at h
  | cons name rest ih =>
    intro k j hnd h
    rcases List.nodup_cons.mp hnd with ⟨hnm, hrest⟩
    cases j with
    | zero =>
      rw [List.getElem?_cons_zero, Option.some_inj] at h
      subst h
      unfold buildIndexAux
      rw [buildIndexAux_none rest (k + 1) hnm]
      simp
    | succ j2 =>
      rw [List.getElem?_cons_succ] at h
      unfold buildIndexAux
      rw [ih (k + 1) j2 hrest h]
      exact congrArg some (by omega)

theorem buildIndexAux_some {x : String} :
    ∀ (l : List String) (k i : Nat), buildIndexAux k l x = some i →
      k ≤ i ∧ l[i - k]? = some x := by
  intro l
  induction l with
  | nil => intro k i h; exact absurd h (by simp [buildIndexAux])
  | cons name rest ih =>
    intro k i h
    unfold buildIndexAux at h
    rcases hrec : buildIndexAux (k + 1) rest x with _ | i2
    · rw [hrec] at h
      by_cases hx : x = name
      · rw [if_pos hx] at h
        rw [Option.some_inj] at h
        subst h
        subst hx
        simp
      · rw [if_neg hx] at h
        exact absurd h (by simp)
    · rw [hrec] at h
      rw [Option.some_inj] at h
      subst h
      rcases ih (k + 1) i2 hrec with ⟨hk, hget⟩
      constructor
      · omega
      · have : i2 - k = (i2 - (k + 1)) + 1 := by omega
        rw [this, List.getElem?_cons_succ]
        exact hget

theorem adjFold_length (index : String → Option Nat) :
    ∀ (rides : List Ride) (adj : List (List Nat)),
      (rides.foldl (fun adj r =>
        match index r.1, index r.2.1 with
        | some u, some v => addEdge adj u v
        | _, _ => adj) adj).length = adj.length := by
  intro rides
  induction rides with
  | nil => intro adj; rfl
  | cons r rs ih =>
    intro adj
    rw [List.foldl_cons, ih]
    rcases index r.1 with _ | u <;> rcases index r.2.1 with _ | v <;>
      simp [addEdge]

theorem adjacency_list_snd (rides : List Ride) (nodes : List String) :
    (adjacency_list rides nodes).2 = sortLe strLeB nodes := rfl

theorem adjacency_list_fst (rides : List Ride) (nodes : List String) :
    (adjacency_list rides nodes).1 = rides.foldl (fun adj r =>
      match buildIndex (sortLe strLeB nodes) r.1, buildIndex (sortLe strLeB nodes) r.2.1 with
      | some u, some v => addEdge adj u v
      | _, _ => adj) (List.replicate (sortLe strLeB nodes).length []) := rfl

theorem sortLe_strings_sorted (l : List String) :
    List.Sorted (· ≤ ·) (sortLe strLeB l) := by
  have h := @pairwise_sortLe String strLeB (fun a b c h1 h2 => strLeB_trans h1 h2)
    (fun a b => strLeB_total a b) l
  exact h.imp (fun h => (strLeB_iff _ _).mp h)

theorem sortLe_strings_eq_of_perm {l1 l2 : List String} (h : l1.Perm l2) :
    sortLe strLeB l1 = sortLe strLeB l2 := by
  refine List.eq_of_perm_of_sorted ?_ (sortLe_strings_sorted l1) (sortLe_strings_sorted l2)
  exact (sortLe_perm strLeB l1).trans (h.trans (sortLe_perm strLeB l2).symm)

/-- C4: the Graph Builder assigns location index `i` to the `i`-th name of
the unique location set in lexicographic order: the result is the same for
every iteration order of the node set (determinism), the names list is
sorted, duplicate-free, and enumerates exactly the unique locations, the
adjacency structure has one row per name, and the name-to-index map sends
the `j`-th name to `j` and nothing else (dense contiguous indices over
`[0, N)`). -/
theorem C4_graph_builder (rides : List Ride) (nodes : List String)
    (hnd : nodes.Nodup) (hmem : ∀ x, x ∈ nodes ↔ x ∈ unique_nodes rides) :
    adjacency_list rides nodes = adjacency_list rides (unique_nodes rides) ∧
    List.Sorted (· ≤ ·) (adjacency_list rides nodes).2 ∧
    (adjacency_list rides nodes).2.Nodup ∧
    (∀ x, x ∈ (adjacency_list rides nodes).2 ↔ x ∈ unique_nodes rides) ∧
    (adjacency_list rides nodes).1.length = (adjacency_list rides nodes).2.length ∧
    (∀ j x, (adjacency_list rides nodes).2[j]? = some x →
      buildIndex (adjacency_list rides nodes).2 x = some j) ∧
    (∀ x i, buildIndex (adjacency_list rides nodes).2 x = some i →
      (adjacency_list rides nodes).2[i]? = some x) := by
  have hperm : nodes.Perm (unique_nodes rides) :=
    (List.perm_ext_iff_of_nodup hnd (unique_nodes_nodup rides)).mpr hmem
  have hsort : sortLe strLeB nodes = sortLe strLeB (unique_nodes rides) :=
    sortLe_strings_eq_of_perm hperm
  have hnd2 : (sortLe strLeB nodes).Nodup := ((sortLe_perm strLeB nodes).symm.nodup hnd)
  refine ⟨?_, ?_, ?_, ?_, ?_, ?_, ?_⟩
  · unfold adjacency_list
    rw [hsort]
  · rw [adjacency_list_snd]
    exact sortLe_strings_sorted nodes
  · rw [adjacency_list_snd]
    exact hnd2
  · intro x
    rw [adjacency_list_snd, (sortLe_perm strLeB nodes).mem_iff]
    exact hmem x
  · rw [adjacency_list_fst, adjacency_list_snd, adjFold_length, List.length_replicate]
  · intro j x hx
    rw [adjacency_list_snd] at hx ⊢
    have h := buildIndexAux_get (sortLe strLeB nodes) 0 j hnd2 hx
    rw [Nat.zero_add] at h
    exact h
  · intro x i hx
    rw [adjacency_list_snd] at hx ⊢
    have h := buildIndexAux_some (sortLe strLeB nodes) 0 i hx
    rw [Nat.sub_zero] at h
    exact h.2

/-- Witness for C4 at the concrete input `rides = [(B, A, Personal)]`,
`nodes = [A, B]`. -/
theorem C4_graph_builder_witness :
    adjacency_list [("B", "A", Category.Personal)] ["A", "B"] =
      adjacency_list [("B", "A", Category.Personal)]
        (unique_nodes [("B", "A", Category.Personal)]) ∧
    List.Sorted (· ≤ ·) (adjacency_list [("B", "A", Category.Personal)] ["A", "B"]).2 ∧
    (adjacency_list [("B", "A", Category.Personal)] ["A", "B"]).2.Nodup ∧
    (∀ x, x ∈ (adjacency_list [("B", "A", Category.Personal)] ["A", "B"]).2 ↔
      x ∈ unique_nodes [("B", "A", Category.Personal)]) ∧
    (adjacency_list [("B", "A", Category.Personal)] ["A", "B"]).1.length =
      (adjacency_list [("B", "A", Category.Personal)] ["A", "B"]).2.length ∧
    (∀ j x, (adjacency_list [("B", "A", Category.Personal)] ["A", "B"]).2[j]? = some x →
      buildIndex (adjacency_list [("B", "A", Category.Personal)] ["A", "B"]).2 x = some j) ∧
    (∀ x i, buildIndex (adjacency_list [("B", "A", Category.Personal)] ["A", "B"]).2 x = some i →
      (adjacency_list [("B", "A", Category.Personal)] ["A", "B"]).2[i]? = some x) :=
  C4_graph_builder [("B", "A", Category.Personal)] ["A", "B"] (by decide)
    (fun x => by
      have h : unique_nodes [("B", "A", Category.Personal)] = ["B", "A"] := rfl
      rw [h]
      simp only [List.mem_cons, List.not_mem_nil, or_false]
      tauto)

/-- C7: the empty record sequence is not an error: `unique_nodes` returns
the empty set, the Graph Builder returns an empty adjacency structure and
an empty names list, `most_frequent_pairs` returns an empty sequence for
every k, and `popular_hubs` returns empty location names for both
categories. -/
theorem C7_empty_records :
    unique_nodes [] = [] ∧
    adjacency_list [] (unique_nodes []) = ([], []) ∧
    (∀ k, most_frequent_pairs [] k = []) ∧
    popular_hubs [] = ("", "") := by
  refine ⟨rfl, rfl, ?_, rfl⟩
  intro k
  unfold most_frequent_pairs pairCounts
  rw [List.foldl_nil]
  show List.take k (sortLe routeLe []) = []
  rw [show sortLe routeLe ([] : List ((String × String) × Nat)) = [] from rfl]
  exact List.take_nil

/-- C10: a self-loop record is counted twice by the hub tally: appending a
record `(o, o, c)` raises location `o`'s tally in category `c` by exactly
2, and the single record `(A, A, Personal)` makes `A` the personal hub
with tally 2 (and leaves the business hub empty). -/
theorem C10_self_loop_counted_twice (rides : List Ride) (o : String) (c : Category) :
    tally (rides ++ [(o, o, c)]) c o = tally rides c o + 2 ∧
    tally [("A", "A", Category.Personal)] Category.Personal "A" = 2 ∧
    popular_hubs [("A", "A", Category.Personal)] = ("A", "") := by
  refine ⟨?_, by decide, by decide⟩
  unfold tally
  rw [List.foldl_append, List.foldl_cons, List.foldl_nil]
  simp

/-! Lemmas about `pairCounts`, the route comparator, and `most_frequent_pairs`. -/

theorem pairLeB_iff (p q : String × String) :
    pairLeB p q = true ↔ (p.1 < q.1 ∨ (p.1 = q.1 ∧ p.2 ≤ q.2)) := by
  unfold pairLeB
  rw [Bool.or_eq_true, Bool.and_eq_true, strLtB_iff, strLeB_iff, decide_eq_true_eq]

theorem pairLeB_total (p q : String × String) :
    pairLeB p q = true ∨ pairLeB q p = true := by
  rw [pairLeB_iff, pairLeB_iff]
  rcases lt_trichotomy p.1 q.1 with h | h | h
  · exact Or.inl (Or.inl h)
  · rcases le_total p.2 q.2 with h2 | h2
    · exact Or.inl (Or.inr ⟨h, h2⟩)
    · exact Or.inr (Or.inr ⟨h.symm, h2⟩)
  · exact Or.inr (Or.inl h)

theorem pairLeB_trans {p q r : String × String} (h1 : pairLeB p q = true)
    (h2 : pairLeB q r = true) : pairLeB p r = true := by
  rw [pairLeB_iff] at h1 h2 ⊢
  rcases h1 with h1 | ⟨h1, h1b⟩
  · rcases h2 with h2 | ⟨h2, _⟩
    · exact Or.inl (lt_trans h1 h2)
    · exact Or.inl (h2 ▸ h1)
  · rcases h2 with h2 | ⟨h2, h2b⟩
    · exact Or.inl (h1 ▸ h2)
    · exact Or.inr ⟨h1.trans h2, le_trans h1b h2b⟩

theorem routeLe_total (a b : (String × String) × Nat) :
    routeLe a b = true ∨ routeLe b a = true := by
  unfold routeLe
  rcases lt_trichotomy a.2 b.2 with h | h | h
  · right
    rw [Bool.or_eq_true, decide_eq_true_eq]
    exact Or.inl h
  · rcases pairLeB_total a.1 b.1 with hp | hp
    · left
      rw [Bool.or_eq_true, Bool.and_eq_true, decide_eq_true_eq, decide_eq_true_eq]
      exact Or.inr ⟨h.symm, hp⟩
    · right
      rw [Bool.or_eq_true, Bool.and_eq_true, decide_eq_true_eq, decide_eq_true_eq]
      exact Or.inr ⟨h, hp⟩
  · left
    rw [Bool.or_eq_true, decide_eq_true_eq]
    exact Or.inl h

theorem routeLe_trans (a b c : (String × String) × Nat) (h1 : routeLe a b = true)
    (h2 : routeLe b c = true) : routeLe a c = true := by
  unfold routeLe at h1 h2 ⊢
  rw [Bool.or_eq_true, Bool.and_eq_true, decide_eq_true_eq, decide_eq_true_eq] at h1 h2 ⊢
  rcases h1 with h1 | ⟨h1, h1b⟩
  · rcases h2 with h2 | ⟨h2, _⟩
    · exact Or.inl (lt_trans h2 h1)
    · exact Or.inl (h2 ▸ h1)
  · rcases h2 with h2 | ⟨h2, h2b⟩
    · exact Or.inl (h1 ▸ h2)
    · exact Or.inr ⟨h2.trans h1, pairLeB_trans h1b h2b⟩

theorem bump_fst (key : String × String) :
    ∀ l : List ((String × String) × Nat),
      (bump l key).map Prod.fst =
        if key ∈ l.map Prod.fst then l.map Prod.fst else l.map Prod.fst ++ [key] := by
  intro l
  induction l with
  | nil => simp [bump]
  | cons e rest ih =>
    rcases e with ⟨k, c⟩
    by_cases hk : k = key
    · subst hk
      simp [bump]
    · unfold bump
      rw [if_neg hk]
      simp only [List.map_cons]
      rw [ih]
      by_cases hmem : key ∈ rest.map Prod.fst
      · rw [if_pos hmem, if_pos (List.mem_cons_of_mem k hmem)]
      · rw [if_neg hmem, if_neg ?_]
        · simp
        · intro hc
          rcases List.mem_cons.mp hc with hc | hc
          · exact hk hc.symm
          · exact hmem hc

theorem countsFold_keys : ∀ (rides : List Ride) (l : List ((String × String) × Nat)),
    (l.map Prod.fst).Nodup →
    ((rides.foldl (fun l r => bump l (pairKey r)) l).map Prod.fst).Nodup ∧
    (∀ p, p ∈ (rides.foldl (fun l r => bump l (pairKey r)) l).map Prod.fst ↔
      p ∈ l.map Prod.fst ∨ p ∈ rides.map pairKey) := by
  intro rides
  induction rides with
  | nil =>
    intro l h
    refine ⟨h, ?_⟩
    intro p
    simp
  | cons r rs ih =>
    intro l h
    rw [List.foldl_cons]
    have hstep : ((bump l (pairKey r)).map Prod.fst).Nodup := by
      rw [bump_fst]
      by_cases hmem : pairKey r ∈ l.map Prod.fst
      · rw [if_pos hmem]; exact h
      · rw [if_neg hmem]
        refine List.Nodup.append h (List.nodup_singleton _) ?_
        intro y hy hy2
        rcases List.mem_singleton.mp hy2 with rfl
        exact hmem hy
    rcases ih (bump l (pairKey r)) hstep with ⟨hnd, hm⟩
    refine ⟨hnd, ?_⟩
    intro p
    rw [hm p, bump_fst]
    by_cases hmem : pairKey r ∈ l.map Prod.fst
    · rw [if_pos hmem]
      simp only [List.map_cons, List.mem_cons]
      constructor
      · intro hc
        rcases hc with hc | hc
        · exact Or.inl hc
        · exact Or.inr (Or.inr hc)
      · intro hc
        rcases hc with hc | hc | hc
        · exact Or.inl hc
        · exact Or.inl (hc ▸ hmem)
        · exact Or.inr hc
    · rw [if_neg hmem]
      simp only [List.mem_append, List.mem_singleton, List.map_cons, List.mem_cons]
      tauto

theorem pairCounts_keys_nodup (rides : List Ride) :
    ((pairCounts rides).map Prod.fst).Nodup :=
  (countsFold_keys rides [] (by simp)).1

theorem pairCounts_keys_mem (rides : List Ride) (p : String × String) :
    p ∈ (pairCounts rides).map Prod.fst ↔ p ∈ rides.map pairKey := by
  unfold pairCounts
  rw [(countsFold_keys rides [] (by simp)).2 p]
  simp

theorem pairCounts_length (rides : List Ride) :
    (pairCounts rides).length = ((rides.map pairKey).dedup).length := by
  have hperm : ((pairCounts rides).map Prod.fst).Perm ((rides.map pairKey).dedup) := by
    refine (List.perm_ext_iff_of_nodup (pairCounts_keys_nodup rides)
      (List.nodup_dedup _)).mpr ?_
    intro p
    rw [pairCounts_keys_mem, List.mem_dedup]
  have h1 := hperm.length_eq
  rw [List.length_map] at h1
  exact h1

/-- C2: `most_frequent_pairs rides k` returns at most `k` entries and at
most as many entries as there are distinct (origin, destination) pairs;
the result is sorted descending by count with equal counts ordered by
ascending lexicographic pair comparison; `k = 0` yields the empty result;
and when at most `k` distinct pairs exist, all of them are returned (the
result is a permutation of the full count list). -/
theorem C2_top_k_routes (rides : List Ride) (k : Nat) :
    (most_frequent_pairs rides k).length ≤ k ∧
    (most_frequent_pairs rides k).length ≤ ((rides.map pairKey).dedup).length ∧
    (most_frequent_pairs rides k).Pairwise (fun a b =>
      b.2 < a.2 ∨ (b.2 = a.2 ∧
        (a.1.1 < b.1.1 ∨ (a.1.1 = b.1.1 ∧ a.1.2 ≤ b.1.2)))) ∧
    most_frequent_pairs rides 0 = [] ∧
    (((rides.map pairKey).dedup).length ≤ k →
      (most_frequent_pairs rides k).Perm (pairCounts rides)) := by
  have hlen : (sortLe routeLe (pairCounts rides)).length = (pairCounts rides).length :=
    (sortLe_perm routeLe (pairCounts rides)).length_eq
  refine ⟨?_, ?_, ?_, ?_, ?_⟩
  · exact List.length_take_le k _
  · unfold most_frequent_pairs
    calc (List.take k (sortLe routeLe (pairCounts rides))).length
        ≤ (sortLe routeLe (pairCounts rides)).length := List.length_take_le' k _
      _ = ((rides.map pairKey).dedup).length := by rw [hlen, pairCounts_length]
  · have hsorted := pairwise_sortLe routeLe_trans routeLe_total
      (pairCounts rides)
    have htake : (most_frequent_pairs rides k).Pairwise (fun a b => routeLe a b = true) :=
      List.Pairwise.sublist (List.take_sublist k _) hsorted
    refine htake.imp ?_
    intro a b h
    unfold routeLe at h
    rw [Bool.or_eq_true, Bool.and_eq_true, decide_eq_true_eq, decide_eq_true_eq,
      pairLeB_iff] at h
    exact h
  · unfold most_frequent_pairs
    exact List.take_zero _
  · intro hk
    unfold most_frequent_pairs
    rw [List.take_of_length_le (by rw [hlen, pairCounts_length]; exact hk)]
    exact sortLe_perm routeLe (pairCounts rides)

/-- Witness for C2 at the concrete input of the repository's unit test
(`make_rides`) with `k = 2`. -/
theorem C2_top_k_routes_witness :
    (most_frequent_pairs
      [("A", "B", Category.Personal), ("A", "B", Category.Personal),
       ("B", "C", Category.Business), ("C", "D", Category.Business)] 2).length ≤ 2 ∧
    (most_frequent_pairs
      [("A", "B", Category.Personal), ("A", "B", Category.Personal),
       ("B", "C", Category.Business), ("C", "D", Category.Business)] 2).length ≤
      (([("A", "B", Category.Personal), ("A", "B", Category.Personal),
         ("B", "C", Category.Business), ("C", "D", Category.Business)].map
          pairKey).dedup).length ∧
    (most_frequent_pairs
      [("A", "B", Category.Personal), ("A", "B", Category.Personal),
       ("B", "C", Category.Business), ("C", "D", Category.Business)] 2).Pairwise
      (fun a b => b.2 < a.2 ∨ (b.2 = a.2 ∧
        (a.1.1 < b.1.1 ∨ (a.1.1 = b.1.1 ∧ a.1.2 ≤ b.1.2)))) ∧
    most_frequent_pairs
      [("A", "B", Category.Personal), ("A", "B", Category.Personal),
       ("B", "C", Category.Business), ("C", "D", Category.Business)] 0 = [] ∧
    ((([("A", "B", Category.Personal), ("A", "B", Category.Personal),
        ("B", "C", Category.Business), ("C", "D", Category.Business)].map
         pairKey).dedup).length ≤ 2 →
      (most_frequent_pairs
        [("A", "B", Category.Personal), ("A", "B", Category.Personal),
         ("B", "C", Category.Business), ("C", "D", Category.Business)] 2).Perm
        (pairCounts
          [("A", "B", Category.Personal), ("A", "B", Category.Personal),
           ("B", "C", Category.Business), ("C", "D", Category.Business)])) :=
  C2_top_k_routes
    [("A", "B", Category.Personal), ("A", "B", Category.Personal),
     ("B", "C", Category.Business), ("C", "D", Category.Business)] 2

/-! Lemmas about `popular_hubs` and its dependence on hash-iteration order. -/

theorem keysOf_nodup (rides : List Ride) (cat : Category) :
    (keysOf rides cat).Nodup := by
  unfold keysOf
  refine nodesFold_nodup _ ?_ rides [] List.nodup_nil
  intro l r h
  by_cases hc : r.2.2 = cat
  · rw [if_pos hc]
    exact insertNode_nodup (insertNode_nodup h)
  · rw [if_neg hc]
    exact h

theorem maxStep_foldl_lt (counts : String → Nat) (m : String) :
    ∀ l : List String, (∀ x ∈ l, counts x < counts m) →
      List.foldl (maxStep counts) (some m) l = some m := by
  intro l
  induction l with
  | nil => intro _; rfl
  | cons y ys ih =>
    intro h
    rw [List.foldl_cons]
    have hy : counts y < counts m := h y (List.mem_cons_self y ys)
    have hstep : maxStep counts (some m) y = some m := by
      show (if counts m ≤ counts y then some y else some m) = some m
      rw [if_neg (Nat.not_le_of_lt hy)]
    rw [hstep]
    exact ih (fun x hx => h x (List.mem_cons_of_mem y hx))

theorem maxStep_foldl_find (counts : String → Nat) (m : String) :
    ∀ (l : List String) (acc : Option String),
      m ∈ l → l.Nodup → (∀ x ∈ l, x ≠ m → counts x < counts m) →
      (acc = none ∨ ∃ b, acc = some b ∧ counts b < counts m) →
      List.foldl (maxStep counts) acc l = some m := by
  intro l
  induction l with
  | nil => intro acc hm; simp at hm
  | cons y ys ih =>
    intro acc hm hnd hdom hacc
    rcases List.nodup_cons.mp hnd with ⟨hyys, hysnd⟩
    rw [List.foldl_cons]
    by_cases hym : y = m
    · subst hym
      have hstep : maxStep counts acc y = some y := by
        rcases hacc with rfl | ⟨b, rfl, hb⟩
        · rfl
        · show (if counts b ≤ counts y then some y else some b) = some y
          rw [if_pos (Nat.le_of_lt hb)]
      rw [hstep]
      refine maxStep_foldl_lt counts y ys ?_
      intro x hx
      have hxy : x ≠ y := fun hc => hyys (hc ▸ hx)
      exact hdom x (List.mem_cons_of_mem y hx) hxy
    · have hmys : m ∈ ys := by
        rcases List.mem_cons.mp hm with hc | hc
        · exact absurd hc.symm hym
        · exact hc
      have hy : counts y < counts m :=
        hdom y (List.mem_cons_self y ys) hym
      refine ih (maxStep counts acc y) hmys hysnd
        (fun x hx hxm => hdom x (List.mem_cons_of_mem y hx) hxm) ?_
      right
      rcases hacc with rfl | ⟨b, rfl, hb⟩
      · exact ⟨y, rfl, hy⟩
      · show ∃ c, (if counts b ≤ counts y then some y else some b) = some c ∧ counts c < counts m
        by_cases hle : counts b ≤ counts y
        · rw [if_pos hle]
          exact ⟨y, rfl, hy⟩
        · rw [if_neg hle]
          exact ⟨b, rfl, hb⟩

theorem maxByCount_of_uniqueMax (counts : String → Nat) {keys l : List String}
    (hperm : l.Perm keys) (hnd : keys.Nodup) (hu : UniqueMax counts keys) :
    maxByCount counts l = maxByCount counts keys := by
  rcases hu with rfl | ⟨m, hm, hdom⟩
  · rw [List.perm_nil.mp hperm]
  · have h1 : maxByCount counts l = some m := by
      refine maxStep_foldl_find counts m l none (hperm.mem_iff.mpr hm)
        (hperm.symm.nodup hnd) ?_ (Or.inl rfl)
      intro x hx hxm
      exact hdom x (hperm.mem_iff.mp hx) hxm
    have h2 : maxByCount counts keys = some m := by
      refine maxStep_foldl_find counts m keys none hm hnd hdom (Or.inl rfl)
    rw [h1, h2]

/-- C5 counterexample: `popular_hubs` is not deterministic under ties.
For the single record `(A, B, Personal)` both locations tally 1; two valid
iteration orders of the same tally map (both permutations of the key set)
produce different personal hubs, because `max_by_key` keeps the last
maximal element of the unspecified `HashMap` iteration order. -/
theorem C5_hub_tie_counterexample :
    (["A", "B"].Perm (keysOf [("A", "B", Category.Personal)] Category.Personal)) ∧
    (["B", "A"].Perm (keysOf [("A", "B", Category.Personal)] Category.Personal)) ∧
    tally [("A", "B", Category.Personal)] Category.Personal "A" =
      tally [("A", "B", Category.Personal)] Category.Personal "B" ∧
    popular_hubsWith [("A", "B", Category.Personal)] ["A", "B"] [] ≠
      popular_hubsWith [("A", "B", Category.Personal)] ["B", "A"] [] := by
  exact ⟨by decide, by decide, by decide, by decide⟩

/-- C5 amended: `popular_hubs` is a deterministic function of the records
and the hash-map iteration orders, and its result is independent of the
iteration order whenever the maximum tally of each category is attained by
a unique location; under a tie the result can differ between iteration
orders, which the program does not fix. -/
theorem C5_hub_determinism_amended (rides : List Ride) (p1 p2 b1 b2 : List String)
    (hp1 : p1.Perm (keysOf rides Category.Personal))
    (hp2 : p2.Perm (keysOf rides Category.Personal))
    (hb1 : b1.Perm (keysOf rides Category.Business))
    (hb2 : b2.Perm (keysOf rides Category.Business))
    (hP : UniqueMax (tally rides Category.Personal) (keysOf rides Category.Personal))
    (hB : UniqueMax (tally rides Category.Business) (keysOf rides Category.Business)) :
    popular_hubsWith rides p1 b1 = popular_hubsWith rides p2 b2 := by
  unfold popular_hubsWith
  rw [maxByCount_of_uniqueMax _ hp1 (keysOf_nodup rides Category.Personal) hP,
    maxByCount_of_uniqueMax _ hp2 (keysOf_nodup rides Category.Personal) hP,
    maxByCount_of_uniqueMax _ hb1 (keysOf_nodup rides Category.Business) hB,
    maxByCount_of_uniqueMax _ hb2 (keysOf_nodup rides Category.Business) hB]

/-- Witness for the amended C5: records `[(A,B,Personal), (A,C,Personal)]`
give A the unique maximal personal tally 2, so two different iteration
orders return the same hubs. -/
theorem C5_hub_determinism_amended_witness :
    popular_hubsWith [("A", "B", Category.Personal), ("A", "C", Category.Personal)]
      ["C", "B", "A"] [] =
    popular_hubsWith [("A", "B", Category.Personal), ("A", "C", Category.Personal)]
      ["A", "B", "C"] [] :=
  C5_hub_determinism_amended
    [("A", "B", Category.Personal), ("A", "C", Category.Personal)]
    ["C", "B", "A"] ["A", "B", "C"] [] []
    (by decide) (by decide) (by decide) (by decide)
    (by unfold UniqueMax; decide) (by unfold UniqueMax; decide)

/-! Counting and indexing helpers for the BFS state. -/

theorem someCount_add_noneCount : ∀ l : List (Option Nat),
    someCount l + noneCount l = l.length := by
  intro l
  induction l with
  | nil => rfl
  | cons o rest ih =>
    unfold someCount noneCount at ih ⊢
    rw [List.countP_cons, List.countP_cons, List.length_cons]
    rcases o with _ | d <;> simp <;> omega

theorem noneCount_le_length (l : List (Option Nat)) : noneCount l ≤ l.length :=
  List.countP_le_length _

theorem noneCount_set_some : ∀ (l : List (Option Nat)) (v w : Nat),
    l[v]? = some none → noneCount (l.set v (some w)) + 1 = noneCount l := by
  intro l
  induction l with
  | nil => intro v w h; simp at h
  | cons o rest ih =>
    intro v w h
    cases v with
    | zero =>
      rw [List.getElem?_cons_zero, Option.some_inj] at h
      subst h
      unfold noneCount
      simp [List.countP_cons]
    | succ v2 =>
      rw [List.getElem?_cons_succ] at h
      have := ih v2 w h
      unfold noneCount at this ⊢
      rw [List.set_cons_succ]
      simp only [List.countP_cons]
      omega

theorem someCount_pos {l : List (Option Nat)} {v d : Nat}
    (h : l[v]? = some (some d)) : 1 ≤ someCount l := by
  rcases List.getElem?_eq_some_iff.mp h with ⟨hlt, hget⟩
  have hmem : some d ∈ l := hget ▸ List.getElem_mem hlt
  have hpos : 0 < someCount l := by
    unfold someCount
    rw [List.countP_pos_iff]
    exact ⟨some d, hmem, rfl⟩
  omega

theorem dval_eq {dist : List (Option Nat)} {u d : Nat}
    (h : dist[u]? = some (some d)) : dval dist u = d := by
  unfold dval
  rw [h]

/-! Lemmas about `relax`, the inner neighbour loop of the BFS. -/

theorem relax_measure (u du : Nat) :
    ∀ (vs : List Nat) (prev dist : List (Option Nat)) (queue : List Nat)
      (p2 d2 : List (Option Nat)) (q2 : List Nat),
      relax u du vs prev dist queue = some (p2, d2, q2) →
      noneCount d2 + q2.length = noneCount dist + queue.length ∧
      d2.length = dist.length := by
  intro vs
  induction vs with
  | nil =>
    intro prev dist queue p2 d2 q2 h
    unfold relax at h
    rw [Option.some_inj] at h
    obtain ⟨rfl, rfl, rfl⟩ : prev = p2 ∧ dist = d2 ∧ queue = q2 := by
      refine ⟨congrArg (fun t => t.1) h, ?_, ?_⟩
      · exact congrArg (fun t => t.2.1) h
      · exact congrArg (fun t => t.2.2) h
    exact ⟨rfl, rfl⟩
  | cons v vs2 ih =>
    intro prev dist queue p2 d2 q2 h
    unfold relax at h
    rcases hv : dist[v]? with _ | x
    · rw [hv] at h
      exact absurd h (by simp)
    · rw [hv] at h
      rcases x with _ | dv
      · have hset := noneCount_set_some dist v (du + 1) hv
        rcases ih _ _ _ _ _ _ h with ⟨hm, hl⟩
        rw [List.length_set] at hl
        refine ⟨?_, hl⟩
        rw [List.length_append, List.length_singleton] at hm
        omega
      · exact ih _ _ _ _ _ _ h

theorem relax_some (u du : Nat) :
    ∀ (vs : List Nat) (prev dist : List (Option Nat)) (queue : List Nat),
      (∀ v ∈ vs, v < dist.length) →
      ∃ r, relax u du vs prev dist queue = some r := by
  intro vs
  induction vs with
  | nil =>
    intro prev dist queue _
    exact ⟨(prev, dist, queue), rfl⟩
  | cons v vs2 ih =>
    intro prev dist queue hval
    have hv : v < dist.length := hval v (List.mem_cons_self v vs2)
    unfold relax
    rw [List.getElem?_eq_getElem hv]
    rcases hx : dist[v] with _ | dv
    · have hval2 : ∀ x ∈ vs2, x < (dist.set v (some (du + 1))).length := by
        rw [List.length_set]
        exact fun x hx2 => hval x (List.mem_cons_of_mem v hx2)
      exact ih _ _ _ hval2
    · exact ih _ _ _ (fun x hx2 => hval x (List.mem_cons_of_mem v hx2))

theorem relax_spec (u du : Nat) :
    ∀ (vs : List Nat) (prev dist : List (Option Nat)) (queue : List Nat)
      (p2 d2 : List (Option Nat)) (q2 : List Nat),
      relax u du vs prev dist queue = some (p2, d2, q2) →
      prev.length = dist.length →
      p2.length = prev.length ∧ d2.length = dist.length ∧
      ∃ ext, q2 = queue ++ ext ∧ ext.Nodup ∧
        someCount d2 = someCount dist + ext.length ∧
        (∀ x ∈ ext, x ∈ vs ∧ dist[x]? = some none ∧
          d2[x]? = some (some (du + 1)) ∧ p2[x]? = some (some u)) ∧
        (∀ x, x ∉ ext → d2[x]? = dist[x]? ∧ p2[x]? = prev[x]?) ∧
        (∀ x ∈ vs, x ∉ ext → ∃ dx, dist[x]? = some (some dx)) := by
  intro vs
  induction vs with
  | nil =>
    intro prev dist queue p2 d2 q2 h hl
    unfold relax at h
    rw [Option.some_inj] at h
    obtain ⟨rfl, rfl, rfl⟩ : prev = p2 ∧ dist = d2 ∧ queue = q2 := by
      refine ⟨congrArg (fun t => t.1) h, congrArg (fun t => t.2.1) h,
        congrArg (fun t => t.2.2) h⟩
    refine ⟨rfl, rfl, [], (List.append_nil queue).symm, List.nodup_nil, by simp, ?_, ?_, ?_⟩
    · intro x hx; simp at hx
    · intro x _; exact ⟨rfl, rfl⟩
    · intro x hx; simp at hx
  | cons v vs2 ih =>
    intro prev dist queue p2 d2 q2 h hl
    unfold relax at h
    rcases hv : dist[v]? with _ | x
    · rw [hv] at h
      exact absurd h (by simp)
    · rw [hv] at h
      rcases x with _ | dv
      · -- v was undiscovered: it gets distance du + 1, predecessor u,
        -- and is pushed on the queue
        have hvlen : v < dist.length := by
          rcases List.getElem?_eq_some_iff.mp hv with ⟨h1, _⟩
          exact h1
        have hl2 : (prev.set v (some u)).length = (dist.set v (some (du + 1))).length := by
          rw [List.length_set, List.length_set]
          exact hl
        rcases ih _ _ _ _ _ _ h hl2 with ⟨hp2, hd2, ext2, hq2, hnd2, hsc2, hins, hkeep, hvs⟩
        have hvext2 : v ∉ ext2 := by
          intro hc
          have := (hins v hc).2.1
          rw [List.getElem?_set_self hvlen] at this
          exact absurd this (by simp)
        have hd2v : d2[v]? = some (some (du + 1)) := by
          rw [(hkeep v hvext2).1, List.getElem?_set_self hvlen]
        have hp2v : p2[v]? = some (some u) := by
          rw [(hkeep v hvext2).2, List.getElem?_set_self (by rw [hl]; exact hvlen)]
        refine ⟨by rw [hp2, List.length_set], by rw [hd2, List.length_set],
          v :: ext2, ?_, ?_, ?_, ?_, ?_, ?_⟩
        · rw [hq2, List.append_cons, List.append_assoc]
          simp
        · rw [List.nodup_cons]
          exact ⟨hvext2, hnd2⟩
        · have hset : someCount (dist.set v (some (du + 1)))
              = someCount dist + 1 := by
            have h1 := someCount_add_noneCount dist
            have h2 := someCount_add_noneCount (dist.set v (some (du + 1)))
            have h3 := noneCount_set_some dist v (du + 1) hv
            rw [List.length_set] at h2
            omega
          rw [hsc2, hset, List.length_cons]
          omega
        · intro x hx
          rcases List.mem_cons.mp hx with rfl | hx2
          · exact ⟨List.mem_cons_self x vs2, hv, hd2v, hp2v⟩
          · rcases hins x hx2 with ⟨hxvs, hxd, hxd2, hxp2⟩
            have hxv : x ≠ v := by
              intro hc
              subst hc
              rw [List.getElem?_set_self hvlen] at hxd
              exact absurd hxd (by simp)
            rw [List.getElem?_set_ne (fun hc => hxv hc.symm)] at hxd
            exact ⟨List.mem_cons_of_mem v hxvs, hxd, hxd2, hxp2⟩
        · intro x hx
          have hxv : x ≠ v := fun hc => hx (hc ▸ List.mem_cons_self v ext2)
          have hxe : x ∉ ext2 := fun hc => hx (List.mem_cons_of_mem v hc)
          rcases hkeep x hxe with ⟨hk1, hk2⟩
          rw [hk1, hk2, List.getElem?_set_ne (fun hc => hxv hc.symm),
            List.getElem?_set_ne (fun hc => hxv hc.symm)]
          exact ⟨rfl, rfl⟩
        · intro x hxvs hxe
          rcases List.mem_cons.mp hxvs with rfl | hxvs2
          · exact absurd (List.mem_cons_self x ext2) hxe
          · have hxv : x ≠ v := fun hc => hxe (hc ▸ List.mem_cons_self v ext2)
            have hxe2 : x ∉ ext2 := fun hc => hxe (List.mem_cons_of_mem v hc)
            rcases hvs x hxvs2 hxe2 with ⟨dx, hdx⟩
            rw [List.getElem?_set_ne (fun hc => hxv hc.symm)] at hdx
            exact ⟨dx, hdx⟩
      · -- v already discovered: nothing changes
        rcases ih _ _ _ _ _ _ h hl with ⟨hp2, hd2, ext2, hq2, hnd2, hsc2, hins, hkeep, hvs⟩
        refine ⟨hp2, hd2, ext2, hq2, hnd2, hsc2, ?_, hkeep, ?_⟩
        · intro x hx
          rcases hins x hx with ⟨hxvs, hxd, hxd2, hxp2⟩
          exact ⟨List.mem_cons_of_mem v hxvs, hxd, hxd2, hxp2⟩
        · intro x hxvs hxe
          rcases List.mem_cons.mp hxvs with rfl | hxvs2
          · exact ⟨dv, hv⟩
          · exact hvs x hxvs2 hxe

theorem dval_congr {d2 dist : List (Option Nat)} {x : Nat}
    (h : d2[x]? = dist[x]?) : dval d2 x = dval dist x := by
  unfold dval
  rw [h]

/-- Dequeuing `u` and relaxing its neighbours preserves the BFS invariant,
and never erases a recorded distance. -/
theorem inv_step (adj : List (List Nat)) (s u du : Nat) (nbrs : List Nat)
    (prev dist p2 d2 : List (Option Nat)) (qs q2 : List Nat)
    (hV : ValidAdj adj) (hInv : Inv adj s prev dist (u :: qs))
    (hnbrs : adj[u]? = some nbrs)
    (hdu : dist[u]? = some (some du))
    (hrel : relax u du nbrs prev dist qs = some (p2, d2, q2)) :
    Inv adj s p2 d2 q2 ∧
      (∀ (x dx : Nat), dist[x]? = some (some dx) → d2[x]? = some (some dx)) := by
  have hgetD : adj.getD u [] = nbrs := by
    rw [List.getD_eq_getElem?_getD, hnbrs]
    rfl
  have hnvalid : ∀ v ∈ nbrs, v < adj.length := by
    rcases List.getElem?_eq_some_iff.mp hnbrs with ⟨hlt, hget⟩
    intro v hv
    exact hV nbrs (hget ▸ List.getElem_mem hlt) v hv
  rcases relax_spec u du nbrs prev dist qs p2 d2 q2 hrel
      (by rw [hInv.lenP, hInv.lenD]) with
    ⟨hlp, hld, ext, hq2, hnde, hsc, hins, hkeep, hvs⟩
  rcases List.nodup_cons.mp hInv.qnd with ⟨hUqs, hqsNd⟩
  have hkeepD : ∀ (x dx : Nat), dist[x]? = some (some dx) → d2[x]? = some (some dx) := by
    intro x dx hx
    by_cases hxe : x ∈ ext
    · rcases hins x hxe with ⟨_, hxnone, _, _⟩
      rw [hx] at hxnone
      exact absurd hxnone (by simp)
    · rw [(hkeep x hxe).1]
      exact hx
  have hnotExt : ∀ (x dx : Nat), dist[x]? = some (some dx) → x ∉ ext := by
    intro x dx hx hxe
    rcases hins x hxe with ⟨_, hxnone, _, _⟩
    rw [hx] at hxnone
    exact absurd hxnone (by simp)
  have hqsExt : ∀ x ∈ qs, x ∉ ext := by
    intro x hx
    rcases hInv.qset x (List.mem_cons_of_mem u hx) with ⟨d, hd⟩
    exact hnotExt x d hd
  have hqsD : ∀ x ∈ qs, d2[x]? = dist[x]? :=
    fun x hx => (hkeep x (hqsExt x hx)).1
  have hdvalqs : ∀ x ∈ qs, dval d2 x = dval dist x :=
    fun x hx => dval_congr (hqsD x hx)
  have hdvalext : ∀ x ∈ ext, dval d2 x = du + 1 :=
    fun x hx => dval_eq (hins x hx).2.2.1
  have hmemq2 : ∀ x : Nat, x ∈ q2 ↔ x ∈ qs ∨ x ∈ ext := by
    intro x
    rw [hq2, List.mem_append]
  have hduv : dval dist u = du := dval_eq hdu
  have monoHead : ∀ x ∈ qs, du ≤ dval dist x := by
    have h1 := (List.pairwise_cons.mp hInv.mono).1
    intro x hx
    have h2 := h1 x hx
    rwa [hduv] at h2
  have spreadU : ∀ x ∈ qs, dval dist x ≤ du + 1 := by
    intro x hx
    have h2 := hInv.spread u (List.mem_cons_self u qs) x (List.mem_cons_of_mem u hx)
    rwa [hduv] at h2
  have hfun : ∀ {l : List (Option Nat)} {v a b : Nat},
      l[v]? = some (some a) → l[v]? = some (some b) → a = b := by
    intro l v a b h1 h2
    rw [h1, Option.some_inj, Option.some_inj] at h2
    exact h2
  refine ⟨⟨?_, ?_, ?_, ?_, ?_, ?_, ?_, ?_, ?_, ?_, ?_, ?_, ?_, ?_, ?_, ?_⟩, hkeepD⟩
  · rw [hlp, hInv.lenP]
  · rw [hld, hInv.lenD]
  · -- qlt
    intro x hx
    rcases (hmemq2 x).mp hx with hx | hx
    · exact hInv.qlt x (List.mem_cons_of_mem u hx)
    · exact hnvalid x (hins x hx).1
  · -- qset
    intro x hx
    rcases (hmemq2 x).mp hx with hx | hx
    · rcases hInv.qset x (List.mem_cons_of_mem u hx) with ⟨d, hd⟩
      exact ⟨d, hkeepD x d hd⟩
    · exact ⟨du + 1, (hins x hx).2.2.1⟩
  · -- qnd
    rw [hq2]
    exact List.Nodup.append hqsNd hnde hqsExt
  · -- sound
    intro v d hv
    by_cases hve : v ∈ ext
    · have hd : d = du + 1 := hfun hv (hins v hve).2.2.1
      subst hd
      exact Walk.step (hInv.sound u du hdu) (hgetD ▸ (hins v hve).1)
    · rw [(hkeep v hve).1] at hv
      exact hInv.sound v d hv
  · -- chain
    intro v w hv
    by_cases hve : v ∈ ext
    · have hw : w = u := by
        have h1 := (hins v hve).2.2.2
        rw [hv, Option.some_inj, Option.some_inj] at h1
        exact h1
      subst hw
      exact ⟨du, hkeepD w du hdu, (hins v hve).2.2.1, hgetD ▸ (hins v hve).1⟩
    · rw [(hkeep v hve).2] at hv
      rcases hInv.chain v w hv with ⟨dw, h1, h2, h3⟩
      exact ⟨dw, hkeepD w dw h1, hkeepD v (dw + 1) h2, h3⟩
  · -- prevS
    have hse : s ∉ ext := hnotExt s 0 hInv.distS
    rw [(hkeep s hse).2]
    exact hInv.prevS
  · -- distS
    exact hkeepD s 0 hInv.distS
  · -- zeroUniq
    intro v hv
    by_cases hve : v ∈ ext
    · have : (0 : Nat) = du + 1 := hfun hv (hins v hve).2.2.1
      omega
    · rw [(hkeep v hve).1] at hv
      exact hInv.zeroUniq v hv
  · -- prevSet
    intro v d hv
    by_cases hve : v ∈ ext
    · exact ⟨u, (hins v hve).2.2.2⟩
    · rw [(hkeep v hve).1] at hv
      rcases hInv.prevSet v d hv with ⟨w, hw⟩
      exact ⟨w, (hkeep v hve).2 ▸ hw⟩
  · -- mono
    rw [hq2]
    rw [List.pairwise_append]
    refine ⟨?_, ?_, ?_⟩
    · have h1 := (List.pairwise_cons.mp hInv.mono).2
      refine List.Pairwise.imp_of_mem ?_ h1
      intro a b ha hb h
      rw [hdvalqs a ha, hdvalqs b hb]
      exact h
    · refine List.Pairwise.imp_of_mem ?_ hnde
      intro a b ha hb _
      rw [hdvalext a ha, hdvalext b hb]
    · intro a ha b hb
      rw [hdvalqs a ha, hdvalext b hb]
      have := spreadU a ha
      omega
  · -- spread
    intro a ha b hb
    rcases (hmemq2 a).mp ha with ha2 | ha2 <;> rcases (hmemq2 b).mp hb with hb2 | hb2
    · rw [hdvalqs a ha2, hdvalqs b hb2]
      exact hInv.spread a (List.mem_cons_of_mem u ha2) b (List.mem_cons_of_mem u hb2)
    · rw [hdvalqs a ha2, hdvalext b hb2]
      have := monoHead a ha2
      omega
    · rw [hdvalext a ha2, hdvalqs b hb2]
      have := spreadU b hb2
      omega
    · rw [hdvalext a ha2, hdvalext b hb2]
      omega
  · -- processed
    intro w dw hw hwq
    have hwe : w ∉ ext := fun hc => hwq ((hmemq2 w).mpr (Or.inr hc))
    have hwqs : w ∉ qs := fun hc => hwq ((hmemq2 w).mpr (Or.inl hc))
    rw [(hkeep w hwe).1] at hw
    by_cases hwu : w = u
    · subst hwu
      have hdwdu : dw = du := hfun hw hdu
      subst hdwdu
      rw [hgetD]
      intro v hv
      by_cases hve : v ∈ ext
      · exact ⟨dw + 1, (hins v hve).2.2.1, le_refl _⟩
      · rcases hvs v hv hve with ⟨dx, hdx⟩
        refine ⟨dx, hkeepD v dx hdx, ?_⟩
        by_cases hvu : v = w
        · subst hvu
          have : dx = dw := hfun hdx hw
          omega
        · by_cases hvqs : v ∈ qs
          · have h1 := spreadU v hvqs
            rw [dval_eq hdx] at h1
            exact h1
          · have hvq : v ∉ w :: qs := by
              intro hc
              rcases List.mem_cons.mp hc with hc | hc
              · exact hvu hc
              · exact hvqs hc
            have h1 := hInv.procLe v dx hdx hvq w (List.mem_cons_self w qs)
            rw [dval_eq hw] at h1
            omega
    · have hwold : w ∉ u :: qs := by
        intro hc
        rcases List.mem_cons.mp hc with hc | hc
        · exact hwu hc
        · exact hwqs hc
      intro v hv
      rcases hInv.processed w dw hw hwold v hv with ⟨dv, h1, h2⟩
      exact ⟨dv, hkeepD v dv h1, h2⟩
  · -- procLe
    intro w dw hw hwq b hb
    have hwe : w ∉ ext := fun hc => hwq ((hmemq2 w).mpr (Or.inr hc))
    have hwqs : w ∉ qs := fun hc => hwq ((hmemq2 w).mpr (Or.inl hc))
    rw [(hkeep w hwe).1] at hw
    by_cases hwu : w = u
    · subst hwu
      have hdwdu : dw = du := hfun hw hdu
      subst hdwdu
      rcases (hmemq2 b).mp hb with hb2 | hb2
      · rw [hdvalqs b hb2]
        exact monoHead b hb2
      · rw [hdvalext b hb2]
        omega
    · have hwold : w ∉ u :: qs := by
        intro hc
        rcases List.mem_cons.mp hc with hc | hc
        · exact hwu hc
        · exact hwqs hc
      rcases (hmemq2 b).mp hb with hb2 | hb2
      · rw [hdvalqs b hb2]
        exact hInv.procLe w dw hw hwold b (List.mem_cons_of_mem u hb2)
      · rw [hdvalext b hb2]
        have h1 := hInv.procLe w dw hw hwold u (List.mem_cons_self u qs)
        rw [hduv] at h1
        omega
  · -- bound
    intro v d hv
    by_cases hve : v ∈ ext
    · have hd : d = du + 1 := hfun hv (hins v hve).2.2.1
      subst hd
      have h1 := hInv.bound u du hdu
      have h2 : 1 ≤ ext.length := by
        have := List.length_pos.mpr (List.ne_nil_of_mem hve)
        omega
      omega
    · rw [(hkeep v hve).1] at hv
      have h1 := hInv.bound v d hv
      omega

/-- The BFS loop succeeds with enough fuel, preserves the invariant and
all recorded distances, and (without early exit) drains the queue. -/
theorem bfsLoop_inv (adj : List (List Nat)) (stopAt : Option Nat) (s : Nat)
    (hV : ValidAdj adj) :
    ∀ (fuel : Nat) (prev dist : List (Option Nat)) (queue : List Nat),
      Inv adj s prev dist queue →
      noneCount dist + queue.length ≤ fuel →
      ∃ p2 d2 q2, bfsLoop adj stopAt fuel prev dist queue = some (p2, d2, q2) ∧
        Inv adj s p2 d2 q2 ∧
        (∀ (x dx : Nat), dist[x]? = some (some dx) → d2[x]? = some (some dx)) ∧
        (stopAt = none → q2 = []) := by
  intro fuel
  induction fuel with
  | zero =>
    intro prev dist queue hInv hm
    cases queue with
    | nil => exact ⟨prev, dist, [], rfl, hInv, fun x dx h => h, fun _ => rfl⟩
    | cons u qs =>
      exfalso
      rw [List.length_cons] at hm
      omega
  | succ fuel ih =>
    intro prev dist queue hInv hm
    cases queue with
    | nil => exact ⟨prev, dist, [], rfl, hInv, fun x dx h => h, fun _ => rfl⟩
    | cons u qs =>
      by_cases hstop : stopAt = some u
      · refine ⟨prev, dist, u :: qs, ?_, hInv, fun x dx h => h, ?_⟩
        · simp only [bfsLoop]
          rw [if_pos hstop]
        · intro h
          rw [h] at hstop
          exact absurd hstop (by simp)
      · have hu : u < adj.length := hInv.qlt u (List.mem_cons_self u qs)
        have hulen : u < adj.length := hu
        have hnb : adj[u]? = some adj[u] := List.getElem?_eq_getElem hu
        rcases hInv.qset u (List.mem_cons_self u qs) with ⟨du, hdu⟩
        have hval : ∀ v ∈ adj[u], v < dist.length := by
          rw [hInv.lenD]
          exact fun v hv => hV adj[u] (List.getElem_mem hu) v hv
        rcases relax_some u du adj[u] prev dist qs hval with ⟨⟨p2m, d2m, q2m⟩, hrel⟩
        rcases inv_step adj s u du adj[u] prev dist p2m d2m qs q2m hV hInv hnb hdu hrel
          with ⟨hInv2, hkeepD⟩
        rcases relax_measure u du adj[u] prev dist qs p2m d2m q2m hrel with ⟨hm2, _⟩
        have hm3 : noneCount d2m + q2m.length ≤ fuel := by
          rw [List.length_cons] at hm
          omega
        rcases ih p2m d2m q2m hInv2 hm3 with ⟨p3, d3, q3, heq3, hInv3, hkeep3, hempty3⟩
        have hstepEq : bfsLoop adj stopAt (fuel + 1) prev dist (u :: qs) =
            bfsLoop adj stopAt fuel p2m d2m q2m := by
          simp only [bfsLoop]
          rw [if_neg hstop, hnb, hdu]
          show (match relax u du adj[u] prev dist qs with
            | some (p2, d2, q2) => bfsLoop adj stopAt fuel p2 d2 q2
            | none => none) = bfsLoop adj stopAt fuel p2m d2m q2m
          rw [hrel]
        refine ⟨p3, d3, q3, ?_, hInv3, ?_, hempty3⟩
        · rw [hstepEq, heq3]
        · intro x dx h
          exact hkeep3 x dx (hkeepD x dx h)

/-- The invariant holds for the initial BFS state. -/
theorem inv_init (adj : List (List Nat)) (s : Nat) (hs : s < adj.length) :
    Inv adj s (List.replicate adj.length none)
      ((List.replicate adj.length none).set s (some 0)) [s] := by
  have hsrep : s < (List.replicate adj.length (none : Option Nat)).length := by
    rw [List.length_replicate]
    exact hs
  have hdists : ((List.replicate adj.length (none : Option Nat)).set s (some 0))[s]?
      = some (some 0) := List.getElem?_set_self hsrep
  have hrep : ∀ x : Nat, (List.replicate adj.length (none : Option Nat))[x]?
      = if x < adj.length then some none else none := by
    intro x
    rw [List.getElem?_replicate]
  have hdistother : ∀ x : Nat, x ≠ s →
      ((List.replicate adj.length (none : Option Nat)).set s (some 0))[x]? =
        if x < adj.length then some none else none := by
    intro x hx
    rw [List.getElem?_set_ne (fun hc => hx hc.symm), hrep]
  have hcases : ∀ (v d : Nat),
      ((List.replicate adj.length (none : Option Nat)).set s (some 0))[v]? =
        some (some d) → v = s ∧ d = 0 := by
    intro v d hv
    by_cases hvs : v = s
    · subst hvs
      rw [hdists, Option.some_inj, Option.some_inj] at hv
      exact ⟨rfl, hv.symm⟩
    · rw [hdistother v hvs] at hv
      by_cases hvn : v < adj.length
      · rw [if_pos hvn] at hv
        exact absurd hv (by simp)
      · rw [if_neg hvn] at hv
        exact absurd hv (by simp)
  refine ⟨?_, ?_, ?_, ?_, ?_, ?_, ?_, ?_, ?_, ?_, ?_, ?_, ?_, ?_, ?_, ?_⟩
  · exact List.length_replicate _ _
  · rw [List.length_set, List.length_replicate]
  · intro x hx
    rw [List.mem_singleton] at hx
    subst hx
    exact hs
  · intro x hx
    rw [List.mem_singleton] at hx
    subst hx
    exact ⟨0, hdists⟩
  · exact List.nodup_singleton s
  · intro v d hv
    rcases hcases v d hv with ⟨rfl, rfl⟩
    exact Walk.refl
  · intro v w hv
    by_cases hvn : v < adj.length
    · rw [hrep v, if_pos hvn] at hv
      exact absurd hv (by simp)
    · rw [hrep v, if_neg hvn] at hv
      exact absurd hv (by simp)
  · rw [hrep s, if_pos hs]
  · exact hdists
  · intro v hv
    exact (hcases v 0 hv).1
  · intro v d hv
    rcases hcases v (d + 1) hv with ⟨_, hd⟩
    omega
  · exact List.pairwise_singleton _ s
  · intro a ha b hb
    rw [List.mem_singleton] at ha hb
    subst ha
    subst hb
    omega
  · intro u du hu huq
    rcases hcases u du hu with ⟨rfl, _⟩
    exact absurd (List.mem_singleton.mpr rfl) huq
  · intro u du hu huq
    rcases hcases u du hu with ⟨rfl, _⟩
    exact absurd (List.mem_singleton.mpr rfl) huq
  · intro v d hv
    rcases hcases v d hv with ⟨_, rfl⟩
    exact someCount_pos hdists

/-- Once the queue is empty, every node reachable by a walk of length `k`
has a recorded distance of at most `k` (BFS minimality). -/
theorem inv_min (adj : List (List Nat)) (s : Nat) (prev dist : List (Option Nat))
    (hInv : Inv adj s prev dist []) :
    ∀ (v k : Nat), Walk adj s v k → ∃ d, dist[v]? = some (some d) ∧ d ≤ k := by
  intro v k hw
  induction hw with
  | refl => exact ⟨0, hInv.distS, Nat.zero_le 0⟩
  | step hw2 hmem ih =>
    rcases ih with ⟨du, hdu, hle⟩
    rcases hInv.processed _ du hdu (List.not_mem_nil _) _ hmem with ⟨dv, h1, h2⟩
    exact ⟨dv, h1, by omega⟩

/-- Path reconstruction: walking the predecessor chain from a node at
recorded distance `d` (with fuel exceeding `d`) yields a list of `d` nodes
ending at that node, forming a chain of actual edges starting at `s`. -/
theorem buildPath_spec (adj : List (List Nat)) (s : Nat) (prev dist : List (Option Nat))
    (q : List Nat) (hInv : Inv adj s prev dist q) :
    ∀ (d e : Nat) (acc : List Nat) (fuel : Nat),
      dist[e]? = some (some d) → d < fuel →
      ∃ cl, buildPath prev fuel e acc = some (cl ++ acc) ∧ cl.length = d ∧
        (s :: cl).getLast? = some e ∧
        List.Chain' (fun a b => b ∈ adj.getD a []) (s :: cl) := by
  intro d
  induction d with
  | zero =>
    intro e acc fuel he hf
    have hes : e = s := hInv.zeroUniq e he
    subst hes
    obtain ⟨f, rfl⟩ : ∃ f, fuel = f + 1 := ⟨fuel - 1, by omega⟩
    refine ⟨[], ?_, rfl, rfl, ?_⟩
    · show buildPath prev (f + 1) e acc = some ([] ++ acc)
      unfold buildPath
      rw [hInv.prevS]
      rw [List.nil_append]
    · exact List.chain'_singleton e
  | succ d ih =>
    intro e acc fuel he hf
    obtain ⟨f, rfl⟩ : ∃ f, fuel = f + 1 := ⟨fuel - 1, by omega⟩
    rcases hInv.prevSet e d he with ⟨w, hw⟩
    rcases hInv.chain e w hw with ⟨dw, hdw, he2, hmem⟩
    have hdwd : dw = d := by
      rw [he, Option.some_inj, Option.some_inj] at he2
      omega
    subst hdwd
    rcases ih w (e :: acc) f hdw (by omega) with ⟨cl2, hbp, hlen, hlast, hchain⟩
    have hsplit : s :: (cl2 ++ [e]) = (s :: cl2) ++ [e] := rfl
    refine ⟨cl2 ++ [e], ?_, ?_, ?_, ?_⟩
    · unfold buildPath
      rw [hw]
      show buildPath prev f w (e :: acc) = some ((cl2 ++ [e]) ++ acc)
      rw [hbp, List.append_assoc]
      rfl
    · rw [List.length_append, hlen]
      rfl
    · rw [hsplit]
      exact List.getLast?_concat _
    · rw [hsplit]
      refine List.Chain'.append hchain (List.chain'_singleton e) ?_
      intro x hx y hy
      rw [hlast] at hx
      rw [Option.mem_def, Option.some_inj] at hx
      rw [List.head?_cons, Option.mem_def, Option.some_inj] at hy
      subst hx
      subst hy
      exact hmem

/-- A successful early-exit BFS run is a prefix of the no-early-exit run:
the full run continues from the early run's final state, with at least the
remaining measure as fuel. -/
theorem bfsLoop_stop_to_none (adj : List (List Nat)) (e : Nat) :
    ∀ (fuel : Nat) (prev dist : List (Option Nat)) (queue : List Nat)
      (p1 d1 : List (Option Nat)) (q1 : List Nat),
      bfsLoop adj (some e) fuel prev dist queue = some (p1, d1, q1) →
      ∃ fuel2 : Nat,
        bfsLoop adj none fuel prev dist queue = bfsLoop adj none fuel2 p1 d1 q1 ∧
        (noneCount dist + queue.length ≤ fuel → noneCount d1 + q1.length ≤ fuel2) := by
  intro fuel
  induction fuel with
  | zero =>
    intro prev dist queue p1 d1 q1 h
    cases queue with
    | nil =>
      obtain ⟨rfl, rfl, rfl⟩ : prev = p1 ∧ dist = d1 ∧ [] = q1 := by
        simp only [bfsLoop, Option.some_inj] at h
        exact ⟨congrArg (fun t => t.1) h, congrArg (fun t => t.2.1) h,
          congrArg (fun t => t.2.2) h⟩
      exact ⟨0, rfl, fun h2 => h2⟩
    | cons u qs =>
      exact absurd h (by simp [bfsLoop])
  | succ fuel ih =>
    intro prev dist queue p1 d1 q1 h
    cases queue with
    | nil =>
      obtain ⟨rfl, rfl, rfl⟩ : prev = p1 ∧ dist = d1 ∧ [] = q1 := by
        simp only [bfsLoop, Option.some_inj] at h
        exact ⟨congrArg (fun t => t.1) h, congrArg (fun t => t.2.1) h,
          congrArg (fun t => t.2.2) h⟩
      exact ⟨fuel + 1, rfl, fun h2 => h2⟩
    | cons u qs =>
      by_cases hstop : e = u
      · have hif : (some e = some u) := by rw [hstop]
        obtain ⟨rfl, rfl, rfl⟩ : prev = p1 ∧ dist = d1 ∧ u :: qs = q1 := by
          rw [show bfsLoop adj (some e) (fuel + 1) prev dist (u :: qs) =
              some (prev, dist, u :: qs) from by
            simp only [bfsLoop]; rw [if_pos hif]] at h
          rw [Option.some_inj] at h
          exact ⟨congrArg (fun t => t.1) h, congrArg (fun t => t.2.1) h,
            congrArg (fun t => t.2.2) h⟩
        exact ⟨fuel + 1, rfl, fun h2 => h2⟩
      · have hif : ¬ (some e = some u) := by
          intro hc
          rw [Option.some_inj] at hc
          exact hstop hc
        rcases hadj : adj[u]? with _ | nbrs
        · rw [show bfsLoop adj (some e) (fuel + 1) prev dist (u :: qs) = none from by
            simp only [bfsLoop]; rw [if_neg hif, hadj]] at h
          exact absurd h (by simp)
        · rcases hdst : dist[u]? with _ | x
          · rw [show bfsLoop adj (some e) (fuel + 1) prev dist (u :: qs) = none from by
              simp only [bfsLoop]; rw [if_neg hif, hadj, hdst]] at h
            exact absurd h (by simp)
          · rcases x with _ | du
            · rw [show bfsLoop adj (some e) (fuel + 1) prev dist (u :: qs) = none from by
                simp only [bfsLoop]; rw [if_neg hif, hadj, hdst]] at h
              exact absurd h (by simp)
            · rcases hrel : relax u du nbrs prev dist qs with _ | r
              · rw [show bfsLoop adj (some e) (fuel + 1) prev dist (u :: qs) = none from by
                  simp only [bfsLoop]
                  rw [if_neg hif, hadj, hdst]
                  show (match relax u du nbrs prev dist qs with
                    | some (p2, d2, q2) => bfsLoop adj (some e) fuel p2 d2 q2
                    | none => none) = none
                  rw [hrel]] at h
                exact absurd h (by simp)
              · rcases r with ⟨pm, dm, qm⟩
                rw [show bfsLoop adj (some e) (fuel + 1) prev dist (u :: qs) =
                    bfsLoop adj (some e) fuel pm dm qm from by
                  simp only [bfsLoop]
                  rw [if_neg hif, hadj, hdst]
                  show (match relax u du nbrs prev dist qs with
                    | some (p2, d2, q2) => bfsLoop adj (some e) fuel p2 d2 q2
                    | none => none) = bfsLoop adj (some e) fuel pm dm qm
                  rw [hrel]] at h
                rcases ih pm dm qm p1 d1 q1 h with ⟨fuel2, heq, hmimp⟩
                refine ⟨fuel2, ?_, ?_⟩
                · rw [show bfsLoop adj none (fuel + 1) prev dist (u :: qs) =
                      bfsLoop adj none fuel pm dm qm from by
                    simp only [bfsLoop]
                    rw [if_neg (by simp), hadj, hdst]
                    show (match relax u du nbrs prev dist qs with
                      | some (p2, d2, q2) => bfsLoop adj none fuel p2 d2 q2
                      | none => none) = bfsLoop adj none fuel pm dm qm
                    rw [hrel]]
                  exact heq
                · intro hm
                  rcases relax_measure u du nbrs prev dist qs pm dm qm hrel with ⟨hm2, _⟩
                  apply hmimp
                  rw [List.length_cons] at hm
                  omega

/-- The Path Finder's BFS run: for a valid start on a valid adjacency
structure, the early-exit loop succeeds and its final state satisfies the
invariant. -/
theorem shortest_path_run (adj : List (List Nat)) (s e : Nat) (hV : ValidAdj adj)
    (hs : s < adj.length) :
    ∃ p1 d1 q1,
      bfsLoop adj (some e) (adj.length + 1) (List.replicate adj.length none)
        ((List.replicate adj.length none).set s (some 0)) [s] = some (p1, d1, q1) ∧
      Inv adj s p1 d1 q1 := by
  have h0 := inv_init adj s hs
  have hmeas : noneCount ((List.replicate adj.length none).set s (some 0)) +
      ([s] : List Nat).length ≤ adj.length + 1 := by
    have h1 := noneCount_le_length ((List.replicate adj.length none).set s (some 0))
    rw [List.length_set, List.length_replicate] at h1
    rw [List.length_singleton]
    omega
  rcases bfsLoop_inv adj (some e) s hV (adj.length + 1) _ _ _ h0 hmeas with
    ⟨p1, d1, q1, heq, hInv, _, _⟩
  exact ⟨p1, d1, q1, heq, hInv⟩

/-- Continuing the early-exit run without early exit: the full BFS (the
spec-modelled `bfs`) succeeds, drains its queue, keeps every distance the
early run recorded, and its final state satisfies the invariant. -/
theorem bfs_continue (adj : List (List Nat)) (s e : Nat) (hV : ValidAdj adj)
    (hs : s < adj.length)
    (p1 d1 : List (Option Nat)) (q1 : List Nat)
    (heq : bfsLoop adj (some e) (adj.length + 1) (List.replicate adj.length none)
      ((List.replicate adj.length none).set s (some 0)) [s] = some (p1, d1, q1))
    (hInv1 : Inv adj s p1 d1 q1) :
    ∃ pf df, bfs adj s = some df ∧ Inv adj s pf df [] ∧
      (∀ (x dx : Nat), d1[x]? = some (some dx) → df[x]? = some (some dx)) := by
  have hmeas : noneCount ((List.replicate adj.length none).set s (some 0)) +
      ([s] : List Nat).length ≤ adj.length + 1 := by
    have h1 := noneCount_le_length ((List.replicate adj.length none).set s (some 0))
    rw [List.length_set, List.length_replicate] at h1
    rw [List.length_singleton]
    omega
  rcases bfsLoop_stop_to_none adj e (adj.length + 1) _ _ _ p1 d1 q1 heq with
    ⟨fuel2, heq2, hmimp⟩
  rcases bfsLoop_inv adj none s hV fuel2 p1 d1 q1 hInv1 (hmimp hmeas) with
    ⟨pf, df, qf, heqf, hInvf, hkeepf, hemptyf⟩
  have hqf : qf = [] := hemptyf rfl
  subst hqf
  refine ⟨pf, df, ?_, hInvf, hkeepf⟩
  unfold bfs
  rw [if_pos hs, heq2, heqf]

/-- C3: for every adjacency structure and valid index `i`,
`shortest_path adj i i` returns the single-element path `[i]`. -/
theorem C3_self_path (adj : List (List Nat)) (i : Nat) (hi : i < adj.length) :
    shortest_path adj i i = some (some [i]) := by
  have hirep : i < (List.replicate adj.length (none : Option Nat)).length := by
    rw [List.length_replicate]
    exact hi
  have hdist : ((List.replicate adj.length (none : Option Nat)).set i (some 0))[i]? =
      some (some 0) := List.getElem?_set_self hirep
  have heq1 : bfsLoop adj (some i) (adj.length + 1) (List.replicate adj.length none)
      ((List.replicate adj.length none).set i (some 0)) [i] =
      some (List.replicate adj.length none,
        (List.replicate adj.length none).set i (some 0), [i]) := by
    simp only [bfsLoop]
    rw [if_pos trivial]
  obtain ⟨m, hm⟩ : ∃ m, adj.length = m + 1 := ⟨adj.length - 1, by omega⟩
  have hbp : buildPath (List.replicate adj.length none) adj.length i [] = some [] := by
    rw [hm]
    unfold buildPath
    rw [List.getElem?_replicate, if_pos (show i < m + 1 from by omega)]
  unfold shortest_path
  rw [if_pos hi, heq1]
  show (match ((List.replicate adj.length none).set i (some 0))[i]? with
    | none => none
    | some none => some none
    | some (some _) =>
      match buildPath (List.replicate adj.length none) adj.length i [] with
      | none => none
      | some cl => some (some (i :: cl))) = some (some [i])
  rw [hdist]
  show (match buildPath (List.replicate adj.length none) adj.length i [] with
    | none => none
    | some cl => some (some (i :: cl))) = some (some [i])
  rw [hbp]

/-- C6: when `end` is not reachable from `start` (both indices valid, all
adjacency entries valid), `shortest_path` returns Rust `None` ("no path
found") rather than panicking; and this is distinct from the empty-input
case, where the same call panics on the index access. -/
theorem C6_unreachable_no_path (adj : List (List Nat)) (s e : Nat)
    (hV : ValidAdj adj) (hs : s < adj.length) (he : e < adj.length)
    (hnr : ¬ Reachable adj s e) :
    shortest_path adj s e = some none ∧ shortest_path [] s e = none := by
  rcases shortest_path_run adj s e hV hs with ⟨p1, d1, q1, heq, hInv1⟩
  have helen : e < d1.length := by
    rw [hInv1.lenD]
    exact he
  have hde : d1[e]? = some d1[e] := List.getElem?_eq_getElem helen
  rcases hx : d1[e] with _ | dd
  · rw [hx] at hde
    constructor
    · unfold shortest_path
      rw [if_pos hs, heq]
      show (match d1[e]? with
        | none => none
        | some none => some none
        | some (some _) =>
          match buildPath p1 adj.length e [] with
          | none => none
          | some cl => some (some (s :: cl))) = some none
      rw [hde]
    · unfold shortest_path
      rw [if_neg (by simp)]
  · exfalso
    rw [hx] at hde
    exact hnr ⟨dd, hInv1.sound e dd hde⟩

/-- C8: an out-of-range index makes `shortest_path` hit the out-of-range
access (modelled as no result); with both indices in range (and valid
adjacency entries, the data-model invariant) no index error can occur and
a result is always produced. -/
theorem C8_index_bounds (adj : List (List Nat)) (s e : Nat) (hV : ValidAdj adj) :
    ((adj.length ≤ s ∨ adj.length ≤ e) → shortest_path adj s e = none) ∧
    (s < adj.length → e < adj.length → ∃ r, shortest_path adj s e = some r) := by
  constructor
  · intro hout
    by_cases hs : s < adj.length
    · rcases hout with hout | hout
      · omega
      · rcases shortest_path_run adj s e hV hs with ⟨p1, d1, q1, heq, hInv1⟩
        have hde : d1[e]? = none := by
          rw [List.getElem?_eq_none_iff, hInv1.lenD]
          exact hout
        unfold shortest_path
        rw [if_pos hs, heq]
        show (match d1[e]? with
          | none => none
          | some none => some none
          | some (some _) =>
            match buildPath p1 adj.length e [] with
            | none => none
            | some cl => some (some (s :: cl))) = none
        rw [hde]
    · unfold shortest_path
      rw [if_neg hs]
  · intro hs he
    rcases shortest_path_run adj s e hV hs with ⟨p1, d1, q1, heq, hInv1⟩
    have helen : e < d1.length := by
      rw [hInv1.lenD]
      exact he
    have hde : d1[e]? = some d1[e] := List.getElem?_eq_getElem helen
    rcases hx : d1[e] with _ | dd
    · rw [hx] at hde
      refine ⟨none, ?_⟩
      unfold shortest_path
      rw [if_pos hs, heq]
      show (match d1[e]? with
        | none => none
        | some none => some none
        | some (some _) =>
          match buildPath p1 adj.length e [] with
          | none => none
          | some cl => some (some (s :: cl))) = some none
      rw [hde]
    · rw [hx] at hde
      have hdlt : dd < adj.length := by
        have h1 := hInv1.bound e dd hde
        have h2 : someCount d1 ≤ d1.length := List.countP_le_length _
        rw [hInv1.lenD] at h2
        omega
      rcases buildPath_spec adj s p1 d1 q1 hInv1 dd e [] adj.length hde hdlt with
        ⟨cl, hbp, _, _, _⟩
      rw [List.append_nil] at hbp
      refine ⟨some (s :: cl), ?_⟩
      unfold shortest_path
      rw [if_pos hs, heq]
      show (match d1[e]? with
        | none => none
        | some none => some none
        | some (some _) =>
          match buildPath p1 adj.length e [] with
          | none => none
          | some cl2 => some (some (s :: cl2))) = some (some (s :: cl))
      rw [hde]
      show (match buildPath p1 adj.length e [] with
        | none => none
        | some cl2 => some (some (s :: cl2))) = some (some (s :: cl))
      rw [hbp]

/-- C1: when `shortest_path` returns a path, the path starts at `start`,
ends at `end`, and its length is the BFS hop distance from `start` to
`end` plus one, where that distance is both the `bfs` table entry
(spec-modelled `stats.rs` traversal without early exit) and the genuine
shortest hop count: a walk of that length exists and no shorter walk
does. -/
theorem C1_shortest_path_correct (adj : List (List Nat)) (s e : Nat) (p : List Nat)
    (hV : ValidAdj adj) (hs : s < adj.length) (he : e < adj.length)
    (hp : shortest_path adj s e = some (some p)) :
    p.head? = some s ∧ p.getLast? = some e ∧
    ∃ tbl d, bfs adj s = some tbl ∧ tbl[e]? = some (some d) ∧
      p.length = d + 1 ∧ Walk adj s e d ∧ (∀ k, Walk adj s e k → d ≤ k) := by
  rcases shortest_path_run adj s e hV hs with ⟨p1, d1, q1, heq, hInv1⟩
  unfold shortest_path at hp
  rw [if_pos hs, heq] at hp
  replace hp : (match d1[e]? with
    | none => none
    | some none => some none
    | some (some _) =>
      match buildPath p1 adj.length e [] with
      | none => none
      | some cl => some (some (s :: cl))) = some (some p) := hp
  rcases hde : d1[e]? with _ | x
  · rw [hde] at hp
    exact absurd hp (by simp)
  · rcases x with _ | d
    · rw [hde] at hp
      exact absurd hp (by simp)
    · rw [hde] at hp
      replace hp : (match buildPath p1 adj.length e [] with
        | none => none
        | some cl => some (some (s :: cl))) = some (some p) := hp
      have hdlt : d < adj.length := by
        have h1 := hInv1.bound e d hde
        have h2 : someCount d1 ≤ d1.length := List.countP_le_length _
        rw [hInv1.lenD] at h2
        omega
      rcases buildPath_spec adj s p1 d1 q1 hInv1 d e [] adj.length hde hdlt with
        ⟨cl, hbp, hlen, hlast, _⟩
      rw [List.append_nil] at hbp
      rw [hbp] at hp
      rw [Option.some_inj, Option.some_inj] at hp
      subst hp
      rcases bfs_continue adj s e hV hs p1 d1 q1 heq hInv1 with
        ⟨pf, df, hbfs, hInvf, hkeepf⟩
      have hdf : df[e]? = some (some d) := hkeepf e d hde
      refine ⟨rfl, hlast, df, d, hbfs, hdf, ?_, hInv1.sound e d hde, ?_⟩
      · rw [List.length_cons, hlen]
      · intro k hk
        rcases inv_min adj s pf df hInvf e k hk with ⟨d2, hd2, hd2le⟩
        have : d = d2 := by
          rw [hdf, Option.some_inj, Option.some_inj] at hd2
          exact hd2
        omega

/-- C9: every returned path is a genuine walk: consecutive elements of the
path are joined by actual directed edges of the adjacency structure. -/
theorem C9_path_is_walk (adj : List (List Nat)) (s e : Nat) (p : List Nat)
    (hV : ValidAdj adj) (hs : s < adj.length) (he : e < adj.length)
    (hp : shortest_path adj s e = some (some p)) :
    List.Chain' (fun a b => b ∈ adj.getD a []) p ∧
    (∀ i : Nat, i + 1 < p.length → ∀ (a b : Nat),
      p[i]? = some a → p[i + 1]? = some b → b ∈ adj.getD a []) := by
  rcases shortest_path_run adj s e hV hs with ⟨p1, d1, q1, heq, hInv1⟩
  unfold shortest_path at hp
  rw [if_pos hs, heq] at hp
  replace hp : (match d1[e]? with
    | none => none
    | some none => some none
    | some (some _) =>
      match buildPath p1 adj.length e [] with
      | none => none
      | some cl => some (some (s :: cl))) = some (some p) := hp
  rcases hde : d1[e]? with _ | x
  · rw [hde] at hp
    exact absurd hp (by simp)
  · rcases x with _ | d
    · rw [hde] at hp
      exact absurd hp (by simp)
    · rw [hde] at hp
      replace hp : (match buildPath p1 adj.length e [] with
        | none => none
        | some cl => some (some (s :: cl))) = some (some p) := hp
      have hdlt : d < adj.length := by
        have h1 := hInv1.bound e d hde
        have h2 : someCount d1 ≤ d1.length := List.countP_le_length _
        rw [hInv1.lenD] at h2
        omega
      rcases buildPath_spec adj s p1 d1 q1 hInv1 d e [] adj.length hde hdlt with
        ⟨cl, hbp, hlen, hlast, hchain⟩
      rw [List.append_nil] at hbp
      rw [hbp] at hp
      rw [Option.some_inj, Option.some_inj] at hp
      subst hp
      refine ⟨hchain, ?_⟩
      intro i hilen a b ha hb
      have hget := List.chain'_iff_get.mp hchain i (by omega)
      have hia : (s :: cl).get ⟨i, by omega⟩ = a := by
        have h1 := List.getElem?_eq_getElem (l := s :: cl) (n := i) (by omega)
        rw [ha] at h1
        rw [Option.some_inj] at h1
        exact h1.symm
      have hib : (s :: cl).get ⟨i + 1, by omega⟩ = b := by
        have h1 := List.getElem?_eq_getElem (l := s :: cl) (n := i + 1) (by omega)
        rw [hb] at h1
        rw [Option.some_inj] at h1
        exact h1.symm
      rw [← hia, ← hib]
      exact hget

/-- Witness for C1 on the 3-cycle `0 → 1 → 2 → 0` (the repository's test
graph) with `start = 0`, `end = 2`. -/
theorem C1_shortest_path_correct_witness :
    ([0, 1, 2] : List Nat).head? = some 0 ∧
    ([0, 1, 2] : List Nat).getLast? = some 2 ∧
    ∃ tbl d, bfs [[1], [2], [0]] 0 = some tbl ∧ tbl[2]? = some (some d) ∧
      ([0, 1, 2] : List Nat).length = d + 1 ∧ Walk [[1], [2], [0]] 0 2 d ∧
      (∀ k, Walk [[1], [2], [0]] 0 2 k → d ≤ k) :=
  C1_shortest_path_correct [[1], [2], [0]] 0 2 [0, 1, 2]
    (by unfold ValidAdj; decide) (by decide) (by decide) (by decide)

/-- Witness for C3 on a one-node graph with no edges. -/
theorem C3_self_path_witness : shortest_path [[]] 0 0 = some (some [0]) :=
  C3_self_path [[]] 0 (by decide)

/-- Witness for C6 on the two-node edgeless graph: node 1 is unreachable
from node 0. -/
theorem C6_unreachable_no_path_witness :
    shortest_path [[], []] 0 1 = some none ∧
    shortest_path ([] : List (List Nat)) 0 1 = none :=
  C6_unreachable_no_path [[], []] 0 1 (by unfold ValidAdj; decide) (by decide)
    (by decide)
    (fun hr => by
      rcases hr with ⟨k, w⟩
      cases w with
      | step w2 hmem =>
        rename_i u k2
        rcases u with _ | _ | u <;> simp [List.getD] at hmem)

/-- Witness for C8 on the 3-cycle with the out-of-range end index 5. -/
theorem C8_index_bounds_witness :
    ((([[1], [2], [0]] : List (List Nat)).length ≤ 0 ∨
        ([[1], [2], [0]] : List (List Nat)).length ≤ 5) →
      shortest_path [[1], [2], [0]] 0 5 = none) ∧
    (0 < ([[1], [2], [0]] : List (List Nat)).length →
      5 < ([[1], [2], [0]] : List (List Nat)).length →
      ∃ r, shortest_path [[1], [2], [0]] 0 5 = some r) :=
  C8_index_bounds [[1], [2], [0]] 0 5 (by unfold ValidAdj; decide)

/-- Witness for C9 on the 3-cycle with `start = 0`, `end = 2`. -/
theorem C9_path_is_walk_witness :
    List.Chain' (fun a b => b ∈ ([[1], [2], [0]] : List (List Nat)).getD a [])
      [0, 1, 2] ∧
    (∀ i : Nat, i + 1 < ([0, 1, 2] : List Nat).length → ∀ (a b : Nat),
      ([0, 1, 2] : List Nat)[i]? = some a → ([0, 1, 2] : List Nat)[i + 1]? = some b →
      b ∈ ([[1], [2], [0]] : List (List Nat)).getD a []) :=
  C9_path_is_walk [[1], [2], [0]] 0 2 [0, 1, 2]
    (by unfold ValidAdj; decide) (by decide) (by decide) (by decide)

end RideGraph
